import Mathlib

/-!
# klog: key/value deduplication and formatting

A shallow embedding of `internal/serialize/keyvalues.go` (`TrimDuplicates`,
`KVListFormat`) and of `testinglogger/testinglogger.go` (`tlogger.Info`,
`tlogger.Error`, `tlogger.log`, and, over slices with backing arrays,
`copySlice`, `tlogger.clone`, `tlogger.WithName`, `tlogger.WithValues`), with the
properties of the specification stated and proved over it.

Go strings are embedded as Lean strings (sequences of Unicode code points, that
is, well-formed UTF-8 text). Floating-point values are outside the model.
-/

namespace Klog

/-! ## Values of type `interface{}` -/

/-- The dynamic values an `interface{}` holds in this model: the nil interface,
a `string`, an `int`, a `bool`, a value of a comparable type with an `Error()`
method (the payload is the text `Error()` returns), a value of a comparable type
with a `String()` method (the payload is the text `String()` returns), and
a `[]byte` (the payload is the text the bytes encode in UTF-8).

A method need not return: `errPanics` and `stringerPanics` are values of a
comparable type whose `Error()` or `String()` panics, the payload being what the
verb `%v` writes for the value passed to `panic` (a panic value whose own
printing panics again has no such text and is outside the model); `errNilPointer` and
`stringerNilPointer` are nil pointers whose `Error()` or `String()` panics on the
nil receiver. `named` is a value of a defined type whose underlying type is
`string` and that has no methods.

Equality of two values is Go's `==` on interface values: same dynamic type, same
content. -/
inductive Value where
  | nil
  | str (s : String)
  | int (n : Int)
  | bool (b : Bool)
  | err (msg : String)
  | stringer (text : String)
  | bytes (b : String)
  | errPanics (shown : String)
  | stringerPanics (shown : String)
  | errNilPointer
  | stringerNilPointer
  | named (s : String)
  deriving DecidableEq, Repr

/-- Whether a value may be used as the key of a Go map: a slice is not
hashable, and using one as a key of `map[interface{}]struct{}` is a run-time
failure. -/
def Value.hashable : Value → Bool
  | .bytes _ => false
  | _ => true

/-- The ways an embedded operation can stop without a result: the two Go
run-time failures that the embedded code could raise, and the exhaustion of the
iteration budget of a loop of the model. -/
inductive Abort where
  | indexOutOfRange
  | unhashableKey
  | outOfFuel
  deriving DecidableEq, Repr

deriving instance DecidableEq for Except

/-- The slice read `s[i]`: fails when `i` is not below `len(s)`. -/
def index {α : Type} (s : List α) (i : Nat) : Except Abort α :=
  match s[i]? with
  | some x => .ok x
  | none => .error .indexOutOfRange

/-- The slice write `s[i] = x`: fails when `i` is not below `len(s)`. -/
def assign {α : Type} (s : List α) (i : Nat) (x : α) : Except Abort (List α) :=
  if i < s.length then .ok (s.set i x) else .error .indexOutOfRange

/-! ## TrimDuplicates -/

/-- The variables of `TrimDuplicates` that its loops update: the map `seenKeys`
(as the list of its keys, most recently added first) and the slice `outs`. -/
structure TrimState where
  seenKeys : List Value
  outs : List (List Value)
  deriving DecidableEq, Repr

/-- One iteration of the inner loop of `TrimDuplicates`, for the list `kvList`
with index `i`, at pair index `i2` (keyvalues.go, lines 47-63). -/
def trimStep (kvList : List Value) (i i2 : Nat) (st : TrimState) : Except Abort TrimState :=
  match index kvList i2 with
  | .error e => .error e
  | .ok k =>
    if k.hashable = false then .error .unhashableKey
    else if k ∈ st.seenKeys then .ok st
    else
      match (if i2 + 1 < kvList.length then index kvList (i2 + 1) else .ok Value.nil) with
      | .error e => .error e
      | .ok v =>
        match index st.outs i with
        | .error e => .error e
        | .ok out =>
          match assign st.outs i ([k, v] ++ out) with
          | .error e => .error e
          | .ok outs => .ok { seenKeys := k :: st.seenKeys, outs := outs }

/-- The inner loop `for i2 := ...; i2 >= 0; i2 -= 2` of `TrimDuplicates`. The
counter is `i2 + 2`, so that the loop test `i2 >= 0` is the pattern `n + 2` and
the update `i2 -= 2` passes `n` on. -/
def trimPairs (kvList : List Value) (i : Nat) : Nat → TrimState → Except Abort TrimState
  | n + 2, st =>
    match trimStep kvList i n st with
    | .error e => .error e
    | .ok st' => trimPairs kvList i n st'
  | _, st => .ok st

/-- The outer loop `for i := len(kvLists) - 1; i >= 0; i--` of `TrimDuplicates`.
The counter is `i + 1`, so that the loop test `i >= 0` is the pattern `i + 1`.
The inner loop starts at `i2 = len(kvList) - 2 + len(kvList) % 2`, that is, at
the counter `len(kvList) + len(kvList) % 2`. -/
def trimLists (kvLists : List (List Value)) : Nat → TrimState → Except Abort TrimState
  | i + 1, st =>
    match assign st.outs i [] with
    | .error e => .error e
    | .ok outs =>
      match index kvLists i with
      | .error e => .error e
      | .ok kvList =>
        match trimPairs kvList i (kvList.length + kvList.length % 2)
            { seenKeys := st.seenKeys, outs := outs } with
        | .error e => .error e
        | .ok st' => trimLists kvLists i st'
  | 0, st => .ok st

/-- The function `TrimDuplicates` (keyvalues.go, lines 27-67): `seenKeys` starts
empty, `outs` starts as `len(kvLists)` nil slices. -/
def TrimDuplicates (kvLists : List (List Value)) : Except Abort (List (List Value)) :=
  match trimLists kvLists kvLists.length
      { seenKeys := [], outs := List.replicate kvLists.length [] } with
  | .error e => .error e
  | .ok st => .ok st.outs

/-! ## The formatting verbs of package `fmt` used by KVListFormat -/

/-- The `width` lower-case hexadecimal digits of `n`, most significant first
(`lowerhex[r>>uint(s)&0xF]` for `s` from `4 * (width - 1)` down to `0`). -/
def hexDigits (width n : Nat) : String :=
  String.mk ((List.range width).reverse.map fun j => Nat.digitChar ((n >>> (4 * j)) % 16))

/-- The function `strconv.IsPrint`. Up to U+00FF the answer is fixed in the Go
source; above, Go consults its Unicode tables, which are the parameter `tbl`. -/
def IsPrint (tbl : Char → Bool) (r : Char) : Bool :=
  if r.toNat ≤ 0xFF then
    if 0x20 ≤ r.toNat ∧ r.toNat ≤ 0x7E then true
    else if 0xA1 ≤ r.toNat ∧ r.toNat ≤ 0xFF then r.toNat != 0xAD
    else false
  else tbl r

/-- The function `appendEscapedRune` of package strconv, for the quote
character `"`: the text that one code point of a quoted string is written as. -/
def escapedRune (tbl : Char → Bool) (ASCIIonly : Bool) (r : Char) : String :=
  if r = '"' ∨ r = '\\' then "\\" ++ String.singleton r
  else if ASCIIonly = true ∧ r.toNat < 0x80 ∧ IsPrint tbl r = true then String.singleton r
  else if ASCIIonly = false ∧ IsPrint tbl r = true then String.singleton r
  else
    match r.toNat with
    | 7 => "\\a"
    | 8 => "\\b"
    | 12 => "\\f"
    | 10 => "\\n"
    | 13 => "\\r"
    | 9 => "\\t"
    | 11 => "\\v"
    | n =>
      if n < 0x20 ∨ n = 0x7F then "\\x" ++ hexDigits 2 n
      else if n < 0x10000 then "\\u" ++ hexDigits 4 n
      else "\\U" ++ hexDigits 8 n

/-- The text written for a string under the verb `%q` (`plus = false`,
`strconv.Quote`) or `%+q` (`plus = true`, `strconv.QuoteToASCII`): a double
quote, the escaped code points, a double quote. -/
def fmtQ (tbl : Char → Bool) (plus : Bool) (s : String) : String :=
  "\"" ++ String.join (s.data.map (escapedRune tbl plus)) ++ "\""

/-- What `fmt` writes in place of an operand whose method `method` panicked
under the verb `verb` (`catchPanic` of package fmt): the verb, the method and
the panic value as `%v` writes it. -/
def panicText (verb method shown : String) : String :=
  "%!" ++ verb ++ "(PANIC=" ++ method ++ " method: " ++ shown ++ ")"

/-- The text `fmt.Sprintf("%s", k)` returns: a string or a byte slice is written
as it is, `Error()` or `String()` is called on a value that has it (a panic of
the method is reported, and a nil pointer receiver is written as `<nil>`), and
for the other dynamic types `fmt` reports the verb as unsuitable. -/
def verbS : Value → String
  | .str s => s
  | .err msg => msg
  | .stringer text => text
  | .bytes b => b
  | .int n => "%!s(int=" ++ toString n ++ ")"
  | .bool b => "%!s(bool=" ++ toString b ++ ")"
  | .nil => "%!s(<nil>)"
  | .errPanics shown => panicText "s" "Error" shown
  | .stringerPanics shown => panicText "s" "String" shown
  | .errNilPointer => "<nil>"
  | .stringerNilPointer => "<nil>"
  | .named s => s

/-- The text `fmt.Sprintf("%+v", v)` returns. -/
def verbPlusV : Value → String
  | .nil => "<nil>"
  | .int n => toString n
  | .bool b => toString b
  | .str s => s
  | .err msg => msg
  | .stringer text => text
  | .bytes b =>
    "[" ++ " ".intercalate
      ((b.data.flatMap String.utf8EncodeChar).map fun c => toString c.toNat) ++ "]"
  | .errPanics shown => panicText "v" "Error" shown
  | .stringerPanics shown => panicText "v" "String" shown
  | .errNilPointer => "<nil>"
  | .stringerNilPointer => "<nil>"
  | .named s => s

/-! ## KVListFormat -/

/-- The constant `missingValue`. -/
def missingValue : String := "(MISSING)"

/-- The type switch of `KVListFormat` (keyvalues.go, lines 84-95): the text
written for the pair `k`, `v` after the separating space. The cases are those of
the source, in its order: `string` and `error` (`%s=%q`; for an error the verb
`%q` quotes what `Error()` returns and reports a panic of `Error()` without
quotes), `[]byte` (`%s=%+q`), and in the default case a `fmt.Stringer`
(`%s=%q`, as for an error) or any other value (`%s=%+v`). -/
def formatPair (tbl : Char → Bool) (k v : Value) : String :=
  match v with
  | .str s => verbS k ++ "=" ++ fmtQ tbl false s
  | .err msg => verbS k ++ "=" ++ fmtQ tbl false msg
  | .errPanics shown => verbS k ++ "=" ++ panicText "q" "Error" shown
  | .errNilPointer => verbS k ++ "=" ++ "<nil>"
  | .bytes b => verbS k ++ "=" ++ fmtQ tbl true b
  | .stringer text => verbS k ++ "=" ++ fmtQ tbl false text
  | .stringerPanics shown => verbS k ++ "=" ++ panicText "q" "String" shown
  | .stringerNilPointer => verbS k ++ "=" ++ "<nil>"
  | .nil => verbS k ++ "=" ++ verbPlusV v
  | .int _ => verbS k ++ "=" ++ verbPlusV v
  | .bool _ => verbS k ++ "=" ++ verbPlusV v
  | .named _ => verbS k ++ "=" ++ verbPlusV v

/-- One iteration of the loop of `KVListFormat` at index `i`, on the buffer
content `b` (keyvalues.go, lines 75-95). -/
def formatStep (tbl : Char → Bool) (keysAndValues : List Value) (i : Nat) (b : String) :
    Except Abort String :=
  match index keysAndValues i with
  | .error e => .error e
  | .ok k =>
    match (if i + 1 < keysAndValues.length then index keysAndValues (i + 1)
           else .ok (Value.str missingValue)) with
    | .error e => .error e
    | .ok v => .ok (b ++ " " ++ formatPair tbl k v)

/-- The loop `for i := 0; i < len(keysAndValues); i += 2` of `KVListFormat`,
from index `i` on, with an iteration budget. -/
def formatLoop (tbl : Char → Bool) (keysAndValues : List Value) :
    Nat → Nat → String → Except Abort String
  | 0, _, _ => .error .outOfFuel
  | fuel + 1, i, b =>
    if i < keysAndValues.length then
      match formatStep tbl keysAndValues i b with
      | .error e => .error e
      | .ok b' => formatLoop tbl keysAndValues fuel (i + 2) b'
    else .ok b

/-- The function `KVListFormat` (keyvalues.go, lines 73-97): the content of the
buffer after the call, from its content `b` before. The budget of
`len(keysAndValues) + 1` iterations is never used up. -/
def KVListFormat (tbl : Char → Bool) (b : String) (keysAndValues : List Value) :
    Except Abort String :=
  formatLoop tbl keysAndValues (keysAndValues.length + 1) 0 b

/-! ## The logger of package testinglogger -/

/-- A call made on the `Logger` that a `tlogger` writes to. -/
inductive SinkCall where
  | Helper
  | Log (args : List Value)
  deriving DecidableEq, Repr

/-- The type `tlogger`: `l` identifies the `Logger` written to, `pfx` is the
field `prefix`, `values` the accumulated key/value pairs. -/
structure tlogger where
  l : Nat
  pfx : String
  values : List Value
  deriving DecidableEq, Repr

/-- The method `tlogger.log` (testinglogger.go, lines 94-106): the calls it makes
on the `Logger`. The buffer is not empty exactly when it holds a character, and
`buffer.Bytes()[1:]` is its content without the first character when that
character takes one byte. -/
def tlogger.log (l : tlogger) (what msg : String) (buffer : String) : List SinkCall :=
  let args := [Value.str what]
  let args := if l.pfx ≠ "" then args ++ [Value.str (l.pfx ++ ":")] else args
  let args := args ++ [Value.str msg]
  let args :=
    if buffer.length > 0 then args ++ [Value.str (String.mk (buffer.data.drop 1))] else args
  [SinkCall.Helper, SinkCall.Log args]

/-- The method `tlogger.Info` (testinglogger.go, lines 71-78): the calls it makes
on the `Logger`, in order. -/
def tlogger.Info (tbl : Char → Bool) (l : tlogger) (msg : String) (kvList : List Value) :
    Except Abort (List SinkCall) :=
  match TrimDuplicates [l.values, kvList] with
  | .error e => .error e
  | .ok trimmed =>
    match index trimmed 0 with
    | .error e => .error e
    | .ok t0 =>
      match KVListFormat tbl "" t0 with
      | .error e => .error e
      | .ok buffer =>
        match index trimmed 1 with
        | .error e => .error e
        | .ok t1 =>
          match KVListFormat tbl buffer t1 with
          | .error e => .error e
          | .ok buffer => .ok (SinkCall.Helper :: l.log "INFO" msg buffer)

/-! ## Reading a KVList as a sequence of pairs; the deduplicated group -/

/-- The pairs of a KVList, in list order; a trailing key without a value is
paired with `d`. -/
def pairsWith (d : Value) : List Value → List (Value × Value)
  | [] => []
  | [k] => [(k, d)]
  | k :: v :: rest => (k, v) :: pairsWith d rest

/-- The pairs of a KVList, a trailing unpaired key being paired with nil. -/
def pairsOf (kvList : List Value) : List (Value × Value) := pairsWith Value.nil kvList

/-- The keys of a KVList: its items at the even positions. -/
def keysOf (kvList : List Value) : List Value := (pairsOf kvList).map Prod.fst

/-- The KVList that holds the given pairs. -/
def flat (ps : List (Value × Value)) : List Value := ps.flatMap fun p => [p.1, p.2]

/-- The pairs that survive deduplication against the keys `seen`: a pair is
dropped when its key is the key of a later pair or is in `seen`. -/
def keepLast (seen : List Value) : List (Value × Value) → List (Value × Value)
  | [] => []
  | p :: rest =>
    if p.1 ∈ rest.map Prod.fst ∨ p.1 ∈ seen then keepLast seen rest
    else p :: keepLast seen rest

/-- The deduplicated group, list by list: each list is deduplicated against the
keys of the lists after it and the keys `seen`. -/
def trimSpecFrom (seen : List Value) : List (List Value) → List (List Value)
  | [] => []
  | l :: rest =>
    flat (keepLast (rest.flatMap keysOf ++ seen) (pairsOf l)) :: trimSpecFrom seen rest

/-- The keys that take precedence over the pair at position `j` of list `i`: the
keys at the later pair positions of list `i` and the keys of the lists after list
`i`. -/
def laterKeys (kvLists : List (List Value)) (i j : Nat) : List Value :=
  (keysOf (kvLists.getD i [])).drop (j + 1) ++ (kvLists.drop (i + 1)).flatMap keysOf

/-- The value that the last pair keyed `x` gives to `x`, if a pair is keyed
`x`. -/
def lastValue (x : Value) : List (Value × Value) → Option Value
  | [] => none
  | p :: rest =>
    match lastValue x rest with
    | some v => some v
    | none => if p.1 = x then some p.2 else none

/-- The position of the last occurrence of `k` in `keys` (0 when there is
none). -/
def lastIndexOf (k : Value) : List Value → Nat
  | [] => 0
  | _ :: rest => if k ∈ rest then lastIndexOf k rest + 1 else 0

/-! ## Definitions that state the properties -/

/-- The text that formatting appends for a sequence of pairs: for each pair, in
order, one space and the text of the pair. -/
def renderPairs (tbl : Char → Bool) : List (Value × Value) → String
  | [] => ""
  | p :: rest => " " ++ formatPair tbl p.1 p.2 ++ renderPairs tbl rest

/-- A table that marks no code point above U+00FF as printable; it stands for
the Unicode tables in examples whose texts hold no such code point. -/
def noTable : Char → Bool := fun _ => false

/-- Every key of every list of the group can be the key of a Go map. -/
def HashableKeys (kvLists : List (List Value)) : Prop :=
  ∀ l ∈ kvLists, ∀ k ∈ keysOf l, k.hashable = true

instance (kvLists : List (List Value)) : Decidable (HashableKeys kvLists) := by
  unfold HashableKeys
  infer_instance

/-! ## The method Error -/

/-- A value of the interface type `error`, as the `interface{}` value passed on
to `KVListFormat`: the nil interface, or a value whose `Error()` returns the
text. -/
def errorValue : Option String → Value
  | none => .nil
  | some msg => .err msg

/-- The method `tlogger.Error` (testinglogger.go, lines 84-92): the calls it
makes on the `Logger`, in order. -/
def tlogger.Error (tbl : Char → Bool) (l : tlogger) (err : Option String) (msg : String)
    (kvList : List Value) : Except Abort (List SinkCall) :=
  match KVListFormat tbl "" [Value.str "err", errorValue err] with
  | .error e => .error e
  | .ok buffer =>
    match TrimDuplicates [l.values, kvList] with
    | .error e => .error e
    | .ok trimmed =>
      match index trimmed 0 with
      | .error e => .error e
      | .ok t0 =>
        match KVListFormat tbl buffer t0 with
        | .error e => .error e
        | .ok buffer =>
          match index trimmed 1 with
          | .error e => .error e
          | .ok t1 =>
            match KVListFormat tbl buffer t1 with
            | .error e => .error e
            | .ok buffer => .ok (SinkCall.Helper :: l.log "ERROR" msg buffer)

/-- The text that `KVListFormat` writes after `err=` for the pair `"err"`, `err`
of `Error`: `<nil>` for the nil error, the quoted text of `Error()` otherwise. -/
def errorText (tbl : Char → Bool) : Option String → String
  | none => "<nil>"
  | some msg => fmtQ tbl false msg

/-! ## Slices, backing arrays, and the methods that derive a logger -/

/-- A slice header: the backing array (by its index in the heap), the length and
the capacity. The slices of `tlogger.values` come from `make` and `append` and
start at the first element of their array. -/
structure Slice where
  arr : Nat
  len : Nat
  cap : Nat
  deriving DecidableEq, Repr

/-- The heap: the backing arrays allocated so far, in the order of allocation. -/
abbrev Heap := List (List Value)

/-- The elements of a slice: the first `len` elements of its backing array. -/
def Slice.elems (h : Heap) (s : Slice) : List Value := (h.getD s.arr []).take s.len

/-- A slice header fits the heap: its length is at most its capacity, and its
backing array holds at least `cap` elements. The nil slice, of length and
capacity 0, fits every heap. -/
def Slice.valid (h : Heap) (s : Slice) : Prop :=
  s.len ≤ s.cap ∧ s.cap ≤ (h.getD s.arr []).length

instance (h : Heap) (s : Slice) : Decidable (s.valid h) := by
  unfold Slice.valid
  infer_instance

/-- The heap `h'` still holds every backing array of the heap `h`, with the same
elements. -/
def keepsArrays (h h' : Heap) : Prop :=
  h.length ≤ h'.length ∧ ∀ i, i < h.length → h'.getD i [] = h.getD i []

/-- The call `make([]interface{}, n)`: a new backing array of `n` nil values,
and the slice of length and capacity `n` over it. -/
def makeSlice (h : Heap) (n : Nat) : Heap × Slice :=
  (h ++ [List.replicate n Value.nil], { arr := h.length, len := n, cap := n })

/-- The call `copy(dst, src)`, for the elements `src` of the source slice: the
first `min(len(dst), len(src))` elements of the array of `dst` are overwritten. -/
def copyInto (h : Heap) (dst : Slice) (src : List Value) : Heap :=
  h.set dst.arr
    (src.take (min dst.len src.length) ++ (h.getD dst.arr []).drop (min dst.len src.length))

/-- The function `copySlice` (testinglogger.go, lines 65-69). -/
def copySlice (h : Heap) (src : Slice) : Heap × Slice :=
  let made := makeSlice h src.len
  (copyInto made.1 made.2 (src.elems made.1), made.2)

/-- The call `append(s, xs...)`: when the new elements fit into the capacity of
`s` they are written into the backing array of `s`, behind its elements;
otherwise a new backing array receives the elements of `s` and then `xs`. The
capacity of a new array is what the run time chooses, `grow n` for the needed
length `n`, and at least `n`. -/
def appendSlice (grow : Nat → Nat) (h : Heap) (s : Slice) (xs : List Value) : Heap × Slice :=
  if s.len + xs.length ≤ s.cap then
    (h.set s.arr ((h.getD s.arr []).take s.len ++ xs ++
        (h.getD s.arr []).drop (s.len + xs.length)),
      { arr := s.arr, len := s.len + xs.length, cap := s.cap })
  else
    (h ++ [s.elems h ++ xs ++
        List.replicate (max (s.len + xs.length) (grow (s.len + xs.length)) -
          (s.len + xs.length)) Value.nil],
      { arr := h.length, len := s.len + xs.length,
        cap := max (s.len + xs.length) (grow (s.len + xs.length)) })

/-- A `tlogger` as it lies in memory: the field `values` is a slice header. -/
structure tloggerMem where
  l : Nat
  pfx : String
  values : Slice
  deriving DecidableEq, Repr

/-- The logger state that a `tlogger` in memory stands for in a heap: `values`
is read through the slice. -/
def tloggerMem.read (h : Heap) (m : tloggerMem) : tlogger :=
  { l := m.l, pfx := m.pfx, values := m.values.elems h }

/-- The method `tlogger.clone` (testinglogger.go, lines 57-63). -/
def tloggerMem.clone (h : Heap) (l : tloggerMem) : Heap × tloggerMem :=
  let copied := copySlice h l.values
  (copied.1, { l := l.l, pfx := l.pfx, values := copied.2 })

/-- The method `tlogger.WithName` (testinglogger.go, lines 116-123). -/
def tloggerMem.WithName (h : Heap) (l : tloggerMem) (name : String) : Heap × tloggerMem :=
  let cloned := l.clone h
  let new := cloned.2
  let new := if l.pfx.length > 0 then { new with pfx := l.pfx ++ "/" } else new
  (cloned.1, { new with pfx := new.pfx ++ name })

/-- The method `tlogger.WithValues` (testinglogger.go, lines 125-129). -/
def tloggerMem.WithValues (grow : Nat → Nat) (h : Heap) (l : tloggerMem)
    (kvList : List Value) : Heap × tloggerMem :=
  let cloned := l.clone h
  let appended := appendSlice grow cloned.1 cloned.2.values kvList
  (appended.1, { cloned.2 with values := appended.2 })

/-! ## TrimDuplicates computes the deduplicated group -/

theorem pairsWith_length (d : Value) (l : List Value) :
    l.length + l.length % 2 = 2 * (pairsWith d l).length := by
  induction l using pairsWith.induct d with
  | case1 => simp [pairsWith]
  | case2 k => simp [pairsWith]
  | case3 k v rest ih => simp only [pairsWith, List.length_cons]; omega

theorem pairsWith_getElem? (d : Value) (l : List Value) :
    ∀ (m : Nat) (p : Value × Value), (pairsWith d l)[m]? = some p →
      l[2 * m]? = some p.1 ∧
      (if 2 * m + 1 < l.length then index l (2 * m + 1) else .ok d) = .ok p.2 := by
  induction l using pairsWith.induct d with
  | case1 => intro m p h; simp [pairsWith] at h
  | case2 k =>
    intro m p h
    cases m with
    | zero => simp [pairsWith] at h; subst h; simp
    | succ m => simp [pairsWith] at h
  | case3 k v rest ih =>
    intro m p h
    cases m with
    | zero => simp [pairsWith] at h; subst h; simp [index]
    | succ m =>
      simp only [pairsWith, List.getElem?_cons_succ] at h
      obtain ⟨h1, h2⟩ := ih m p h
      have e1 : 2 * (m + 1) = 2 * m + 1 + 1 := by omega
      simp only [e1, List.getElem?_cons_succ, List.length_cons, index] at h1 h2 ⊢
      refine ⟨h1, ?_⟩
      by_cases hlt : 2 * m + 1 < rest.length
      · simp [hlt] at h2 ⊢; exact h2
      · simp [hlt] at h2 ⊢; exact h2

theorem keepLast_congr {s s' : List Value} (h : ∀ k, k ∈ s ↔ k ∈ s')
    (ps : List (Value × Value)) : keepLast s ps = keepLast s' ps := by
  induction ps with
  | nil => rfl
  | cons p rest ih => simp only [keepLast, ih, h]

theorem keepLast_snoc (seen : List Value) (ps : List (Value × Value)) (p : Value × Value) :
    keepLast seen (ps ++ [p]) =
      keepLast (p.1 :: seen) ps ++ (if p.1 ∈ seen then [] else [p]) := by
  induction ps with
  | nil => by_cases h : p.1 ∈ seen <;> simp [keepLast, h]
  | cons q rest ih =>
    have hc : (q.1 ∈ List.map Prod.fst (rest ++ [p]) ∨ q.1 ∈ seen) ↔
        (q.1 ∈ List.map Prod.fst rest ∨ q.1 ∈ p.1 :: seen) := by
      simp only [List.map_append, List.map_cons, List.map_nil, List.mem_append,
        List.mem_singleton, List.mem_cons]
      tauto
    by_cases h : q.1 ∈ List.map Prod.fst rest ∨ q.1 ∈ p.1 :: seen
    · rw [List.cons_append, keepLast, keepLast, if_pos h, if_pos (hc.mpr h), ih]
    · rw [List.cons_append, keepLast, keepLast, if_neg h, if_neg (fun x => h (hc.mp x)), ih]
      rfl

theorem mem_keepLast_keys (seen : List Value) (ps : List (Value × Value)) (k : Value) :
    k ∈ (keepLast seen ps).map Prod.fst ++ seen ↔ k ∈ ps.map Prod.fst ∨ k ∈ seen := by
  induction ps with
  | nil => simp [keepLast]
  | cons p rest ih =>
    simp only [keepLast]
    by_cases h : p.1 ∈ rest.map Prod.fst ∨ p.1 ∈ seen
    · rw [if_pos h, ih]
      simp only [List.map_cons, List.mem_cons]
      constructor
      · tauto
      · rintro ((rfl | h1) | h2)
        · exact h
        · exact Or.inl h1
        · exact Or.inr h2
    · rw [if_neg h]
      simp only [List.map_cons, List.cons_append, List.mem_cons]
      rw [ih]
      tauto

theorem keepLast_sublist (seen : List Value) (ps : List (Value × Value)) :
    List.Sublist (keepLast seen ps) ps := by
  induction ps with
  | nil => exact List.Sublist.slnil
  | cons p rest ih =>
    simp only [keepLast]
    split
    · exact List.Sublist.cons p ih
    · exact List.Sublist.cons₂ p ih

theorem flat_append (a b : List (Value × Value)) : flat (a ++ b) = flat a ++ flat b := by
  simp [flat]

theorem pairsOf_flat (ps : List (Value × Value)) : pairsOf (flat ps) = ps := by
  induction ps with
  | nil => rfl
  | cons p rest ih =>
    have : flat (p :: rest) = p.1 :: p.2 :: flat rest := by simp [flat]
    rw [this]
    unfold pairsOf at ih ⊢
    simp [pairsWith, ih]

theorem trimStep_seen (kvList : List Value) (i m : Nat) (p : Value × Value) (seen : List Value)
    (outs : List (List Value)) (hp : (pairsOf kvList)[m]? = some p) (hh : p.1.hashable = true)
    (hs : p.1 ∈ seen) :
    trimStep kvList i (2 * m) ⟨seen, outs⟩ = .ok ⟨seen, outs⟩ := by
  obtain ⟨h1, _⟩ := pairsWith_getElem? Value.nil kvList m p hp
  simp [trimStep, index, h1, hh, hs]

theorem trimStep_new (kvList : List Value) (i m : Nat) (p : Value × Value) (seen : List Value)
    (outs : List (List Value)) (out : List Value) (hp : (pairsOf kvList)[m]? = some p)
    (hh : p.1.hashable = true) (hs : p.1 ∉ seen) (ho : outs[i]? = some out) :
    trimStep kvList i (2 * m) ⟨seen, outs⟩ =
      .ok ⟨p.1 :: seen, outs.set i ([p.1, p.2] ++ out)⟩ := by
  obtain ⟨h1, h2⟩ := pairsWith_getElem? Value.nil kvList m p hp
  have hi : i < outs.length := by
    rcases Nat.lt_or_ge i outs.length with h | h
    · exact h
    · rw [List.getElem?_eq_none h] at ho; cases ho
  simp only [trimStep, index, h1, hh, hs] 
  simp only [index] at h2
  simp [h2, ho, assign, hi]

theorem trimPairs_take (kvList : List Value) (i : Nat)
    (hk : ∀ k ∈ keysOf kvList, k.hashable = true) :
    ∀ (m : Nat), m ≤ (pairsOf kvList).length →
    ∀ (seen : List Value) (outs : List (List Value)) (out : List Value),
      outs[i]? = some out →
      trimPairs kvList i (2 * m) ⟨seen, outs⟩ =
        .ok ⟨(keepLast seen ((pairsOf kvList).take m)).map Prod.fst ++ seen,
             outs.set i (flat (keepLast seen ((pairsOf kvList).take m)) ++ out)⟩ := by
  intro m
  induction m with
  | zero =>
    intro _ seen outs out ho
    have hi : i < outs.length := by
      rcases Nat.lt_or_ge i outs.length with h | h
      · exact h
      · rw [List.getElem?_eq_none h] at ho; cases ho
    have hset : outs.set i out = outs := by
      apply List.ext_getElem? 
      intro j
      by_cases hj : i = j
      · subst hj; simp [List.getElem?_set, hi, ho]
      · simp [List.getElem?_set, hj]
    simp [trimPairs, keepLast, flat, hset]
  | succ m ih =>
    intro hm seen outs out ho
    have hlt : m < (pairsOf kvList).length := hm
    have hp : (pairsOf kvList)[m]? = some ((pairsOf kvList)[m]) := List.getElem?_eq_getElem hlt
    generalize hpe : (pairsOf kvList)[m] = p at hp
    have hh : p.1.hashable = true := by
      apply hk
      rw [keysOf, List.mem_map]
      exact ⟨p, List.getElem?_mem hp, rfl⟩
    have htake : (pairsOf kvList).take (m + 1) = (pairsOf kvList).take m ++ [p] := by
      rw [List.take_succ, hp]; rfl
    have e2 : 2 * (m + 1) = 2 * m + 2 := by omega
    have hi : i < outs.length := by
      rcases Nat.lt_or_ge i outs.length with h | h
      · exact h
      · rw [List.getElem?_eq_none h] at ho; cases ho
    rw [e2, trimPairs, htake, keepLast_snoc]
    by_cases hs : p.1 ∈ seen
    · rw [trimStep_seen kvList i m p seen outs hp hh hs]
      simp only
      rw [ih (Nat.le_of_lt hlt) seen outs out ho, if_pos hs, List.append_nil]
      have hc : keepLast (p.1 :: seen) (List.take m (pairsOf kvList)) =
          keepLast seen (List.take m (pairsOf kvList)) :=
        keepLast_congr (fun k => by
          simp only [List.mem_cons]
          constructor
          · rintro (rfl | h)
            · exact hs
            · exact h
          · exact Or.inr) _
      rw [hc]
    · rw [trimStep_new kvList i m p seen outs out hp hh hs ho]
      simp only
      have ho' : (outs.set i ([p.1, p.2] ++ out))[i]? = some ([p.1, p.2] ++ out) := by
        simp [List.getElem?_set, hi]
      rw [ih (Nat.le_of_lt hlt) (p.1 :: seen) _ _ ho', if_neg hs]
      simp [flat_append, flat]

theorem trimSpecFrom_congr {s s' : List Value} (h : ∀ k, k ∈ s ↔ k ∈ s')
    (g : List (List Value)) : trimSpecFrom s g = trimSpecFrom s' g := by
  induction g with
  | nil => rfl
  | cons l rest ih =>
    have hc : keepLast (rest.flatMap keysOf ++ s) (pairsOf l) =
        keepLast (rest.flatMap keysOf ++ s') (pairsOf l) :=
      keepLast_congr (fun k => by simp only [List.mem_append, h]) _
    simp only [trimSpecFrom, ih, hc]

theorem trimSpecFrom_snoc (seen : List Value) (g : List (List Value)) (l : List Value) :
    trimSpecFrom seen (g ++ [l]) =
      trimSpecFrom (keysOf l ++ seen) g ++ [flat (keepLast seen (pairsOf l))] := by
  induction g with
  | nil => simp [trimSpecFrom]
  | cons l' rest ih =>
    rw [List.cons_append, trimSpecFrom, trimSpecFrom, ih]
    simp only [List.flatMap_append, List.flatMap_cons, List.flatMap_nil, List.append_nil,
      List.append_assoc, List.cons_append]

theorem trimSpecFrom_length (seen : List Value) (g : List (List Value)) :
    (trimSpecFrom seen g).length = g.length := by
  induction g with
  | nil => rfl
  | cons l rest ih => simp [trimSpecFrom, ih]

theorem trimLists_take (g : List (List Value)) (hk : HashableKeys g) :
    ∀ (n : Nat), n ≤ g.length →
    ∀ (seen : List Value) (outs : List (List Value)), outs.length = g.length →
      ∃ seen', trimLists g n ⟨seen, outs⟩ =
          .ok ⟨seen', trimSpecFrom seen (g.take n) ++ outs.drop n⟩ ∧
        ∀ k, k ∈ seen' ↔ k ∈ (g.take n).flatMap keysOf ∨ k ∈ seen := by
  intro n
  induction n with
  | zero =>
    intro _ seen outs _
    exact ⟨seen, by simp [trimLists, trimSpecFrom], by simp⟩
  | succ n ih =>
    intro hn seen outs hlen
    have hlt : n < g.length := hn
    have hg : g[n]? = some g[n] := List.getElem?_eq_getElem hlt
    generalize hl : g[n] = l at hg
    have hkl : ∀ k ∈ keysOf l, k.hashable = true := hk l (List.getElem?_mem hg)
    have hno : n < outs.length := by omega
    have hfull : (pairsOf l).take (pairsOf l).length = pairsOf l := List.take_length _
    have hstart : l.length + l.length % 2 = 2 * (pairsOf l).length := pairsWith_length _ l
    have ho : (outs.set n [])[n]? = some [] := by simp [List.getElem?_set, hno]
    have hpairs := trimPairs_take l n hkl (pairsOf l).length (Nat.le_refl _) seen
      (outs.set n []) [] ho
    rw [hfull, List.append_nil, List.set_set] at hpairs
    obtain ⟨seen', h1, h2⟩ := ih (Nat.le_of_lt hlt)
      ((keepLast seen (pairsOf l)).map Prod.fst ++ seen)
      (outs.set n (flat (keepLast seen (pairsOf l)))) (by simp [hlen])
    refine ⟨seen', ?_, ?_⟩
    · simp only [trimLists, assign, hno, if_true, index, hg, hstart, hpairs, h1]
      have htake : g.take (n + 1) = g.take n ++ [l] := by
        rw [List.take_succ, hg]; rfl
      rw [htake, trimSpecFrom_snoc]
      have hc : trimSpecFrom (List.map Prod.fst (keepLast seen (pairsOf l)) ++ seen) (g.take n) =
          trimSpecFrom (keysOf l ++ seen) (g.take n) :=
        trimSpecFrom_congr (fun k => by
          rw [mem_keepLast_keys, List.mem_append, keysOf]) _
      rw [hc]
      have hd : List.drop n (outs.set n (flat (keepLast seen (pairsOf l)))) =
          flat (keepLast seen (pairsOf l)) :: List.drop (n + 1) outs := by
        rw [List.drop_eq_getElem_cons (by simpa using hno)]
        simp [List.drop_set]
      rw [hd]
      simp
    · intro k
      rw [h2, mem_keepLast_keys]
      have htake : g.take (n + 1) = g.take n ++ [l] := by
        rw [List.take_succ, hg]; rfl
      rw [htake]
      simp only [List.flatMap_append, List.flatMap_cons, List.flatMap_nil, List.append_nil,
        List.mem_append, keysOf]
      tauto

theorem TrimDuplicates_eq_spec (g : List (List Value)) (hk : HashableKeys g) :
    TrimDuplicates g = .ok (trimSpecFrom [] g) := by
  obtain ⟨seen', h1, _⟩ := trimLists_take g hk g.length (Nat.le_refl _) []
    (List.replicate g.length []) (by simp)
  simp [TrimDuplicates, h1]

/-! ## Properties of TrimDuplicates -/

theorem trimSpecFrom_getElem? (seen : List Value) (g : List (List Value)) :
    ∀ (i : Nat) (l : List Value), g[i]? = some l →
      (trimSpecFrom seen g)[i]? =
        some (flat (keepLast ((g.drop (i + 1)).flatMap keysOf ++ seen) (pairsOf l))) := by
  induction g with
  | nil => intro i l h; simp at h
  | cons l' rest ih =>
    intro i l h
    cases i with
    | zero =>
      simp only [List.getElem?_cons_zero, Option.some.injEq] at h
      subst h
      simp [trimSpecFrom]
    | succ i =>
      simp only [List.getElem?_cons_succ] at h
      simp only [trimSpecFrom, List.getElem?_cons_succ, List.drop_succ_cons]
      exact ih i l h

theorem keepLast_eq_filter (seen : List Value) (l : List (Value × Value)) :
    ∀ (pre : List (Value × Value)),
      keepLast seen l =
        ((l.enumFrom pre.length).filter
          (fun jp => decide (jp.2.1 ∉ ((pre ++ l).map Prod.fst).drop (jp.1 + 1) ++ seen))).map
          Prod.snd := by
  induction l with
  | nil => intro pre; simp [keepLast]
  | cons p rest ih =>
    intro pre
    have hd : ((pre ++ p :: rest).map Prod.fst).drop (pre.length + 1) = rest.map Prod.fst := by
      rw [List.map_append, List.map_cons]
      have : pre.length + 1 = (List.map Prod.fst pre ++ [p.1]).length := by simp
      rw [show List.map Prod.fst pre ++ p.1 :: List.map Prod.fst rest =
        (List.map Prod.fst pre ++ [p.1]) ++ List.map Prod.fst rest by simp, this,
        List.drop_left]
    have ih' := ih (pre ++ [p])
    rw [List.length_append, List.length_singleton,
      show (pre ++ [p]) ++ rest = pre ++ p :: rest by simp] at ih'
    rw [List.enumFrom_cons, List.filter_cons, keepLast]
    simp only [hd, List.mem_append]
    by_cases h : p.1 ∈ rest.map Prod.fst ∨ p.1 ∈ seen
    · rw [if_pos h]
      simp only [h, not_true_eq_false, decide_False, Bool.false_eq_true, if_false]
      simpa only [List.mem_append] using ih'
    · rw [if_neg h]
      simp only [h, not_false_eq_true, decide_True, if_true, List.map_cons]
      congr 1
      simpa only [List.mem_append] using ih'

/-- C1: for a group whose keys are comparable values, `TrimDuplicates` returns
one list per input list, and output list `i` holds, in input order and with the
value each was paired with (nil for a trailing key without a value), exactly
the pairs of input list `i` whose key is neither the key of a later pair of list
`i` nor a key of a list after list `i`. -/
theorem TrimDuplicates_keeps_pair_iff (kvLists : List (List Value))
    (hk : HashableKeys kvLists) :
    ∃ outs, TrimDuplicates kvLists = .ok outs ∧ outs.length = kvLists.length ∧
      ∀ i, i < kvLists.length →
        outs[i]? = some (flat (((pairsOf (kvLists.getD i [])).enum.filter
          (fun jp => decide (jp.2.1 ∉ laterKeys kvLists i jp.1))).map Prod.snd)) := by
  refine ⟨trimSpecFrom [] kvLists, TrimDuplicates_eq_spec kvLists hk,
    trimSpecFrom_length _ _, ?_⟩
  intro i hi
  have hg : kvLists[i]? = some kvLists[i] := List.getElem?_eq_getElem hi
  have hgd : kvLists.getD i [] = kvLists[i] := by simp [List.getD, hg]
  rw [trimSpecFrom_getElem? [] kvLists i _ hg, hgd,
    keepLast_eq_filter _ (pairsOf kvLists[i]) []]
  simp only [laterKeys, hgd, keysOf, List.length_nil, List.nil_append, List.append_nil, List.enum]

theorem TrimDuplicates_keeps_pair_iff_witness :
    HashableKeys [[.str "a", .int 1, .str "b", .int 2, .str "a"], [.str "b", .int 3]] ∧
    ∃ outs, TrimDuplicates [[.str "a", .int 1, .str "b", .int 2, .str "a"], [.str "b", .int 3]]
        = .ok outs ∧ outs.length = 2 ∧
      ∀ i, i < 2 →
        outs[i]? = some (flat (((pairsOf
          ([[Value.str "a", .int 1, .str "b", .int 2, .str "a"],
            [.str "b", .int 3]].getD i [])).enum.filter
          (fun jp => decide (jp.2.1 ∉ laterKeys
            [[.str "a", .int 1, .str "b", .int 2, .str "a"], [.str "b", .int 3]] i jp.1))).map
          Prod.snd)) :=
  ⟨by decide, TrimDuplicates_keeps_pair_iff _ (by decide)⟩

theorem keysOf_flat (ps : List (Value × Value)) : keysOf (flat ps) = ps.map Prod.fst := by
  rw [keysOf, pairsOf_flat]

theorem keepLast_not_seen (seen : List Value) (ps : List (Value × Value)) :
    ∀ p ∈ keepLast seen ps, p.1 ∉ seen := by
  induction ps with
  | nil => intro p h; simp [keepLast] at h
  | cons q rest ih =>
    intro p h
    simp only [keepLast] at h
    by_cases hc : q.1 ∈ rest.map Prod.fst ∨ q.1 ∈ seen
    · rw [if_pos hc] at h; exact ih p h
    · rw [if_neg hc] at h
      rcases List.mem_cons.mp h with rfl | h'
      · exact fun hs => hc (Or.inr hs)
      · exact ih p h'

theorem lastValue_eq_none (x : Value) (ps : List (Value × Value)) :
    lastValue x ps = none ↔ x ∉ ps.map Prod.fst := by
  induction ps with
  | nil => simp [lastValue]
  | cons p rest ih =>
    simp only [lastValue, List.map_cons, List.mem_cons, not_or]
    cases hl : lastValue x rest with
    | some v =>
      have : ¬ (x ∉ rest.map Prod.fst) := fun h => by rw [ih.mpr h] at hl; cases hl
      constructor
      · intro h; cases h
      · rintro ⟨_, h⟩; exact absurd h this
    | none =>
      have hx := ih.mp hl
      by_cases hp : p.1 = x
      · simp [hp]
      · simp [hp, hx, Ne.symm hp]

theorem keepLast_filter_key (seen : List Value) (x : Value) (hx : x ∉ seen)
    (ps : List (Value × Value)) :
    (keepLast seen ps).filter (fun p => decide (p.1 = x)) =
      match lastValue x ps with
      | some v => [(x, v)]
      | none => [] := by
  induction ps with
  | nil => simp [keepLast, lastValue]
  | cons p rest ih =>
    simp only [keepLast, lastValue]
    cases hl : lastValue x rest with
    | some v =>
      rw [hl] at ih
      have hin : x ∈ rest.map Prod.fst := by
        by_contra h
        rw [(lastValue_eq_none x rest).mpr h] at hl; cases hl
      by_cases hc : p.1 ∈ rest.map Prod.fst ∨ p.1 ∈ seen
      · rw [if_pos hc]; exact ih
      · rw [if_neg hc]
        have hne : ¬ p.1 = x := fun h => hc (Or.inl (h ▸ hin))
        simp only [List.filter_cons, hne, decide_False, Bool.false_eq_true, if_false]
        exact ih
    | none =>
      rw [hl] at ih
      have hnin : x ∉ rest.map Prod.fst := (lastValue_eq_none x rest).mp hl
      by_cases hp : p.1 = x
      · have hc : ¬ (p.1 ∈ rest.map Prod.fst ∨ p.1 ∈ seen) := by
          rw [hp]; exact fun h => h.elim hnin hx
        rw [if_neg hc]
        simp only [List.filter_cons, hp, decide_True, if_true, ih]
        rw [← hp]
      · simp only [hp, if_false]
        by_cases hc : p.1 ∈ rest.map Prod.fst ∨ p.1 ∈ seen
        · rw [if_pos hc]; exact ih
        · rw [if_neg hc]
          simp only [List.filter_cons, hp, decide_False, Bool.false_eq_true, if_false]
          exact ih

/-- C2: for two lists `A` and `B` with comparable keys and a key `x` of both,
`TrimDuplicates(A, B)` returns an output for `A` without the key `x` and an
output for `B` with exactly one pair keyed `x`, whose value is the one of the
last pair keyed `x` in `B`. -/
theorem TrimDuplicates_precedence (A B : List Value) (x : Value)
    (hk : HashableKeys [A, B]) (_hA : x ∈ keysOf A) (hB : x ∈ keysOf B) :
    ∃ outA outB v, TrimDuplicates [A, B] = .ok [outA, outB] ∧
      x ∉ keysOf outA ∧
      lastValue x (pairsOf B) = some v ∧
      (pairsOf outB).filter (fun p => decide (p.1 = x)) = [(x, v)] := by
  have hspec := TrimDuplicates_eq_spec [A, B] hk
  cases hl : lastValue x (pairsOf B) with
  | none => exact absurd hB ((lastValue_eq_none x (pairsOf B)).mp hl)
  | some v =>
    refine ⟨_, _, v, hspec, ?_, rfl, ?_⟩
    · rw [keysOf_flat]
      intro hmem
      obtain ⟨p, hp, hpx⟩ := List.mem_map.mp hmem
      apply keepLast_not_seen _ _ p hp
      rw [hpx]
      simpa using hB
    · rw [pairsOf_flat]
      have := keepLast_filter_key ([].flatMap keysOf ++ []) x (by simp) (pairsOf B)
      rw [hl] at this
      exact this

theorem TrimDuplicates_precedence_witness :
    HashableKeys [[.str "x", .int 1, .str "y", .int 2], [.str "x", .int 3, .str "x", .int 4]] ∧
    Value.str "x" ∈ keysOf [.str "x", .int 1, .str "y", .int 2] ∧
    Value.str "x" ∈ keysOf [.str "x", .int 3, .str "x", .int 4] ∧
    ∃ outA outB v,
      TrimDuplicates [[.str "x", .int 1, .str "y", .int 2], [.str "x", .int 3, .str "x", .int 4]]
        = .ok [outA, outB] ∧
      Value.str "x" ∉ keysOf outA ∧
      lastValue (.str "x") (pairsOf [.str "x", .int 3, .str "x", .int 4]) = some v ∧
      (pairsOf outB).filter (fun p => decide (p.1 = .str "x")) = [(.str "x", v)] :=
  ⟨by decide, by decide, by decide,
    TrimDuplicates_precedence _ _ _ (by decide) (by decide) (by decide)⟩

theorem keepLast_of_nodup (seen : List Value) (ps : List (Value × Value))
    (hn : (ps.map Prod.fst).Nodup) (hs : ∀ p ∈ ps, p.1 ∉ seen) : keepLast seen ps = ps := by
  induction ps with
  | nil => rfl
  | cons p rest ih =>
    rw [List.map_cons, List.nodup_cons] at hn
    have hc : ¬ (p.1 ∈ rest.map Prod.fst ∨ p.1 ∈ seen) :=
      fun h => h.elim hn.1 (hs p (List.mem_cons_self _ _))
    rw [keepLast, if_neg hc, ih hn.2 (fun q hq => hs q (List.mem_cons_of_mem _ hq))]

theorem flat_pairsOf (l : List Value) :
    flat (pairsOf l) = if l.length % 2 = 0 then l else l ++ [Value.nil] := by
  unfold pairsOf
  induction l using pairsWith.induct Value.nil with
  | case1 => simp [pairsWith, flat]
  | case2 k => simp [pairsWith, flat]
  | case3 k v rest ih =>
    have e : flat ((k, v) :: pairsWith Value.nil rest) =
        k :: v :: flat (pairsWith Value.nil rest) := by
      simp [flat]
    rw [pairsWith, e, ih]
    have hm : (k :: v :: rest).length % 2 = rest.length % 2 := by
      simp only [List.length_cons]; omega
    rw [hm]
    split <;> simp

/-- C3, counterexample: the list `["a"]` has pairwise distinct keys, and
`TrimDuplicates` returns `["a", nil]` for it, not the list itself. -/
theorem TrimDuplicates_single_counterexample :
    (keysOf [Value.str "a"]).Nodup ∧ HashableKeys [[Value.str "a"]] ∧
    TrimDuplicates [[Value.str "a"]] = .ok [[Value.str "a", Value.nil]] ∧
    TrimDuplicates [[Value.str "a"]] ≠ .ok [[Value.str "a"]] := by
  decide

/-- C3, amended: for a single list `L` whose keys are pairwise distinct and
comparable, `TrimDuplicates(L)` returns a group of one list, which is `L` itself
when `L` has even length and `L` followed by nil when `L` has odd length. -/
theorem TrimDuplicates_single_distinct (L : List Value) (hn : (keysOf L).Nodup)
    (hk : HashableKeys [L]) :
    TrimDuplicates [L] = .ok [if L.length % 2 = 0 then L else L ++ [Value.nil]] := by
  rw [TrimDuplicates_eq_spec [L] hk, ← flat_pairsOf]
  simp only [trimSpecFrom, List.flatMap_nil, List.append_nil]
  rw [keepLast_of_nodup [] (pairsOf L) hn (fun _ _ => List.not_mem_nil _)]

theorem TrimDuplicates_single_distinct_witness :
    (keysOf [Value.str "a", .int 1, .str "b", .int 2, .str "c", .int 3]).Nodup ∧
    HashableKeys [[Value.str "a", .int 1, .str "b", .int 2, .str "c", .int 3]] ∧
    TrimDuplicates [[Value.str "a", .int 1, .str "b", .int 2, .str "c", .int 3]] =
      .ok [if [Value.str "a", .int 1, .str "b", .int 2, .str "c", .int 3].length % 2 = 0
           then [Value.str "a", .int 1, .str "b", .int 2, .str "c", .int 3]
           else [Value.str "a", .int 1, .str "b", .int 2, .str "c", .int 3] ++ [Value.nil]] :=
  ⟨by decide, by decide, TrimDuplicates_single_distinct _ (by decide) (by decide)⟩

theorem trimSpecFrom_getD (seen : List Value) (g : List (List Value)) (i : Nat)
    (hi : i < g.length) :
    (trimSpecFrom seen g).getD i [] =
      flat (keepLast ((g.drop (i + 1)).flatMap keysOf ++ seen) (pairsOf (g.getD i []))) := by
  have hg : g[i]? = some g[i] := List.getElem?_eq_getElem hi
  have hgd : g.getD i [] = g[i] := by simp [List.getD, hg]
  rw [List.getD, List.get?_eq_getElem?, trimSpecFrom_getElem? seen g i _ hg, hgd]
  rfl

/-- C4: for a group with comparable keys, `TrimDuplicates` returns as many lists
as it was given, and the pairs of output list `i` are a subsequence, in the same
order, of the pairs of input list `i`. -/
theorem TrimDuplicates_sublist (kvLists : List (List Value)) (hk : HashableKeys kvLists) :
    ∃ outs, TrimDuplicates kvLists = .ok outs ∧ outs.length = kvLists.length ∧
      ∀ i, i < kvLists.length →
        List.Sublist (pairsOf (outs.getD i [])) (pairsOf (kvLists.getD i [])) := by
  refine ⟨trimSpecFrom [] kvLists, TrimDuplicates_eq_spec kvLists hk,
    trimSpecFrom_length _ _, ?_⟩
  intro i hi
  rw [trimSpecFrom_getD [] kvLists i hi, pairsOf_flat]
  exact keepLast_sublist _ _

theorem TrimDuplicates_sublist_witness :
    HashableKeys [[.str "a", .int 1, .str "b", .int 2, .str "a"], [.str "b", .int 3]] ∧
    ∃ outs, TrimDuplicates [[.str "a", .int 1, .str "b", .int 2, .str "a"], [.str "b", .int 3]]
        = .ok outs ∧ outs.length = 2 ∧
      ∀ i, i < 2 →
        List.Sublist (pairsOf (outs.getD i []))
          (pairsOf ([[Value.str "a", .int 1, .str "b", .int 2, .str "a"],
            [.str "b", .int 3]].getD i [])) :=
  ⟨by decide, TrimDuplicates_sublist _ (by decide)⟩

theorem keepLast_order (seen : List Value) (ps : List (Value × Value)) :
    ∀ a b, a ∈ (keepLast seen ps).map Prod.fst → b ∈ (keepLast seen ps).map Prod.fst →
      List.indexOf a ((keepLast seen ps).map Prod.fst) <
        List.indexOf b ((keepLast seen ps).map Prod.fst) →
      lastIndexOf a (ps.map Prod.fst) < lastIndexOf b (ps.map Prod.fst) := by
  induction ps with
  | nil => intro a b ha; simp [keepLast] at ha
  | cons p rest ih =>
    intro a b
    have hsub : ∀ k, k ∈ (keepLast seen rest).map Prod.fst → k ∈ rest.map Prod.fst :=
      fun k hk => ((keepLast_sublist seen rest).map Prod.fst).subset hk
    simp only [keepLast]
    by_cases hc : p.1 ∈ rest.map Prod.fst ∨ p.1 ∈ seen
    · rw [if_pos hc]
      intro ha hb hlt
      simp only [List.map_cons, lastIndexOf, hsub a ha, hsub b hb, if_true]
      exact Nat.succ_lt_succ (ih a b ha hb hlt)
    · rw [if_neg hc]
      have hp : p.1 ∉ rest.map Prod.fst := fun h => hc (Or.inl h)
      simp only [List.map_cons, List.mem_cons]
      intro ha hb hlt
      by_cases hap : a = p.1
      · subst hap
        by_cases hbp : b = p.1
        · subst hbp; exact absurd hlt (Nat.lt_irrefl _)
        · have hb' : b ∈ (keepLast seen rest).map Prod.fst := hb.resolve_left hbp
          simp [lastIndexOf, hp, hsub b hb']
      · have ha' : a ∈ (keepLast seen rest).map Prod.fst := ha.resolve_left hap
        by_cases hbp : b = p.1
        · subst hbp
          rw [List.indexOf_cons_self] at hlt
          exact absurd hlt (Nat.not_lt_zero _)
        · have hb' : b ∈ (keepLast seen rest).map Prod.fst := hb.resolve_left hbp
          rw [List.indexOf_cons_ne _ (Ne.symm hap), List.indexOf_cons_ne _ (Ne.symm hbp)] at hlt
          simp only [lastIndexOf, hsub a ha', hsub b hb', if_true]
          exact Nat.succ_lt_succ (ih a b ha' hb' (Nat.lt_of_succ_lt_succ hlt))

/-- C5, counterexample: in `["a", 1, "b", 2, "a", 3]` the first occurrence of
`"a"` comes before the first occurrence of `"b"`, and both keys survive, but the
output is `["b", 2, "a", 3]`, with `"b"` before `"a"`. -/
theorem TrimDuplicates_first_occurrence_counterexample :
    TrimDuplicates [[.str "a", .int 1, .str "b", .int 2, .str "a", .int 3]] =
      .ok [[.str "b", .int 2, .str "a", .int 3]] ∧
    List.indexOf (Value.str "b") (keysOf [.str "b", .int 2, .str "a", .int 3]) <
      List.indexOf (Value.str "a") (keysOf [.str "b", .int 2, .str "a", .int 3]) ∧
    ¬ (List.indexOf (Value.str "b")
        (keysOf [.str "a", .int 1, .str "b", .int 2, .str "a", .int 3]) <
      List.indexOf (Value.str "a")
        (keysOf [.str "a", .int 1, .str "b", .int 2, .str "a", .int 3])) := by
  decide

/-- C5, amended: for a group with comparable keys, the keys that survive in
output list `i` appear there in the relative order of their last occurrences in
input list `i`. -/
theorem TrimDuplicates_last_occurrence_order (kvLists : List (List Value))
    (hk : HashableKeys kvLists) :
    ∃ outs, TrimDuplicates kvLists = .ok outs ∧
      ∀ i, i < kvLists.length → ∀ a b,
        a ∈ keysOf (outs.getD i []) → b ∈ keysOf (outs.getD i []) →
        List.indexOf a (keysOf (outs.getD i [])) < List.indexOf b (keysOf (outs.getD i [])) →
        lastIndexOf a (keysOf (kvLists.getD i [])) <
          lastIndexOf b (keysOf (kvLists.getD i [])) := by
  refine ⟨trimSpecFrom [] kvLists, TrimDuplicates_eq_spec kvLists hk, ?_⟩
  intro i hi
  rw [trimSpecFrom_getD [] kvLists i hi, keysOf_flat]
  exact keepLast_order _ _

theorem TrimDuplicates_last_occurrence_order_witness :
    HashableKeys [[.str "a", .int 1, .str "b", .int 2, .str "a", .int 3]] ∧
    ∃ outs, TrimDuplicates [[.str "a", .int 1, .str "b", .int 2, .str "a", .int 3]] = .ok outs ∧
      ∀ i, i < 1 → ∀ a b,
        a ∈ keysOf (outs.getD i []) → b ∈ keysOf (outs.getD i []) →
        List.indexOf a (keysOf (outs.getD i [])) < List.indexOf b (keysOf (outs.getD i [])) →
        lastIndexOf a (keysOf ([[Value.str "a", .int 1, .str "b", .int 2, .str "a",
            .int 3]].getD i [])) <
          lastIndexOf b (keysOf ([[Value.str "a", .int 1, .str "b", .int 2, .str "a",
            .int 3]].getD i [])) :=
  ⟨by decide, TrimDuplicates_last_occurrence_order _ (by decide)⟩

/-! ## KVListFormat appends the text of the pairs -/

theorem drop_eq_cons_pair (d : Value) (l : List Value) (i : Nat) (hi : i < l.length) :
    ∃ k v, index l i = .ok k ∧
      (if i + 1 < l.length then index l (i + 1) else .ok d) = .ok v ∧
      pairsWith d (l.drop i) = (k, v) :: pairsWith d (l.drop (i + 2)) := by
  have h1 : l.drop i = l[i] :: l.drop (i + 1) := List.drop_eq_getElem_cons hi
  by_cases h2 : i + 1 < l.length
  · have h3 : l.drop (i + 1) = l[i + 1] :: l.drop (i + 2) := List.drop_eq_getElem_cons h2
    refine ⟨l[i], l[i + 1], ?_, ?_, ?_⟩
    · simp [index, List.getElem?_eq_getElem hi]
    · simp [index, h2, List.getElem?_eq_getElem h2]
    · rw [h1, h3, pairsWith]
  · have h3 : l.drop (i + 1) = [] := List.drop_eq_nil_of_le (by omega)
    have h4 : l.drop (i + 2) = [] := List.drop_eq_nil_of_le (by omega)
    refine ⟨l[i], d, ?_, ?_, ?_⟩
    · simp [index, List.getElem?_eq_getElem hi]
    · simp [h2]
    · rw [h1, h3, h4]; simp [pairsWith]

theorem formatLoop_eq (tbl : Char → Bool) (kvs : List Value) :
    ∀ (fuel i : Nat) (b : String), kvs.length ≤ i + 2 * fuel →
      formatLoop tbl kvs (fuel + 1) i b =
        .ok (b ++ renderPairs tbl (pairsWith (.str missingValue) (kvs.drop i))) := by
  intro fuel
  induction fuel with
  | zero =>
    intro i b h
    have hi : ¬ i < kvs.length := by omega
    have hd : kvs.drop i = [] := List.drop_eq_nil_of_le (by omega)
    simp [formatLoop, hi, hd, pairsWith, renderPairs]
  | succ fuel ih =>
    intro i b h
    by_cases hi : i < kvs.length
    · obtain ⟨k, v, h1, h2, h3⟩ := drop_eq_cons_pair (.str missingValue) kvs i hi
      rw [formatLoop, if_pos hi, formatStep, h1]
      simp only [h2]
      rw [ih (i + 2) _ (by omega), h3, renderPairs]
      simp only [String.append_assoc]
    · have hd : kvs.drop i = [] := List.drop_eq_nil_of_le (by omega)
      simp [formatLoop, hi, hd, pairsWith, renderPairs]

theorem KVListFormat_eq_render (tbl : Char → Bool) (b : String) (kvs : List Value) :
    KVListFormat tbl b kvs =
      .ok (b ++ renderPairs tbl (pairsWith (.str missingValue) kvs)) := by
  rw [KVListFormat, formatLoop_eq tbl kvs kvs.length 0 b (by omega), List.drop_zero]

theorem renderPairs_append (tbl : Char → Bool) (ps qs : List (Value × Value)) :
    renderPairs tbl (ps ++ qs) = renderPairs tbl ps ++ renderPairs tbl qs := by
  induction ps with
  | nil => simp [renderPairs]
  | cons p rest ih =>
    rw [List.cons_append, renderPairs, renderPairs, ih]
    simp only [String.append_assoc]

theorem pairsWith_flat (d : Value) (ps : List (Value × Value)) : pairsWith d (flat ps) = ps := by
  induction ps with
  | nil => rfl
  | cons p rest ih =>
    have : flat (p :: rest) = p.1 :: p.2 :: flat rest := by simp [flat]
    rw [this, pairsWith, ih]

theorem pairsWith_snoc (d : Value) (l : List Value) (k : Value) (he : l.length % 2 = 0) :
    pairsWith d (l ++ [k]) = pairsWith Value.nil l ++ [(k, d)] := by
  induction l using pairsWith.induct d with
  | case1 => simp [pairsWith]
  | case2 k' => simp at he
  | case3 k' v rest ih =>
    have he' : rest.length % 2 = 0 := by
      simp only [List.length_cons] at he; omega
    rw [List.cons_append, List.cons_append, pairsWith, pairsWith, ih he']
    rfl

/-! ## Properties of KVListFormat -/

/-- C6, counterexample: for `["a", 1, "b"]` the buffer ends in
`b="(MISSING)"`, the placeholder inside double quotes, and not in
`b=(MISSING)`. -/
theorem KVListFormat_missing_counterexample :
    KVListFormat noTable "" [.str "a", .int 1, .str "b"] = .ok " a=1 b=\"(MISSING)\"" ∧
    ¬ (" b=(MISSING)".data <:+ " a=1 b=\"(MISSING)\"".data) := by
  decide

/-- C6, amended: for an odd-length list, `items` followed by the key `k`,
`KVListFormat` writes what it writes for `items` and then a space, the key as
the verb `%s` writes it, `=` and the placeholder `(MISSING)` inside double
quotes. -/
theorem KVListFormat_missing_quoted (tbl : Char → Bool) (b : String) (items : List Value)
    (k : Value) (he : items.length % 2 = 0) :
    ∃ b', KVListFormat tbl b items = .ok b' ∧
      KVListFormat tbl b (items ++ [k]) = .ok (b' ++ " " ++ verbS k ++ "=\"(MISSING)\"") ∧
      ∀ s, verbS (.str s) = s := by
  refine ⟨_, KVListFormat_eq_render tbl b items, ?_, fun _ => rfl⟩
  rw [KVListFormat_eq_render, pairsWith_snoc _ _ _ he, renderPairs_append]
  have hp : pairsWith (.str missingValue) items = pairsWith Value.nil items := by
    have := pairsWith_snoc (.str missingValue) items k he
    have h2 := pairsWith_flat (.str missingValue) (pairsWith Value.nil items)
    have h3 : flat (pairsWith Value.nil items) = items := by
      have := flat_pairsOf items
      rw [if_pos he] at this
      exact this
    rw [h3] at h2
    exact h2
  have hq : renderPairs tbl [(k, Value.str missingValue)] = " " ++ verbS k ++ "=\"(MISSING)\"" := by
    simp only [renderPairs, formatPair]
    have : fmtQ tbl false missingValue = "\"(MISSING)\"" := by rfl
    have e : ("=" ++ "\"(MISSING)\"" : String) = "=\"(MISSING)\"" := by decide
    rw [this]
    simp only [String.append_assoc, String.append_empty]
    rw [e]
  rw [hp, hq]
  simp only [String.append_assoc]

theorem KVListFormat_missing_quoted_witness :
    [Value.str "a", Value.int 1].length % 2 = 0 ∧
    ∃ b', KVListFormat noTable "" [.str "a", .int 1] = .ok b' ∧
      KVListFormat noTable "" ([.str "a", .int 1] ++ [.str "b"]) =
        .ok (b' ++ " " ++ verbS (.str "b") ++ "=\"(MISSING)\"") ∧
      ∀ s, verbS (.str s) = s :=
  ⟨by decide, KVListFormat_missing_quoted noTable "" [.str "a", .int 1] (.str "b") (by decide)⟩

theorem join_data (l : List String) : (String.join l).data = l.flatMap String.data := by
  have h : ∀ (l : List String) (acc : String),
      (List.foldl (fun r s => r ++ s) acc l).data = acc.data ++ l.flatMap String.data := by
    intro l
    induction l with
    | nil => intro acc; simp
    | cons x rest ih =>
      intro acc
      simp only [List.foldl_cons, ih, String.data_append, List.flatMap_cons, List.append_assoc]
  have := h l ""
  simpa [String.join] using this

theorem digitChar_range (n : Nat) :
    0x20 ≤ (Nat.digitChar n).toNat ∧ (Nat.digitChar n).toNat < 0x7F := by
  rcases Nat.lt_or_ge n 16 with h | h
  · interval_cases n <;> decide
  · obtain ⟨m, rfl⟩ : ∃ m, n = m + 16 := ⟨n - 16, by omega⟩
    have e : Nat.digitChar (m + 16) = '*' := by
      simp [Nat.digitChar]
    rw [e]
    decide

theorem hexDigits_range (w n : Nat) :
    ∀ ch ∈ (hexDigits w n).data, 0x20 ≤ ch.toNat ∧ ch.toNat < 0x7F := by
  intro ch hch
  simp only [hexDigits, List.mem_map] at hch
  obtain ⟨j, _, rfl⟩ := hch
  exact digitChar_range _

theorem IsPrint_range (tbl : Char → Bool) (ch : Char) (h : IsPrint tbl ch = true) :
    (0x20 ≤ ch.toNat ∧ ch.toNat ≤ 0x7E) ∨ 0xA1 ≤ ch.toNat := by
  unfold IsPrint at h
  by_cases hff : ch.toNat ≤ 0xFF
  · rw [if_pos hff] at h
    by_cases ha : 0x20 ≤ ch.toNat ∧ ch.toNat ≤ 0x7E
    · exact Or.inl ha
    · rw [if_neg ha] at h
      by_cases hb : 0xA1 ≤ ch.toNat ∧ ch.toNat ≤ 0xFF
      · exact Or.inr hb.1
      · rw [if_neg hb] at h
        cases h
  · right
    omega

theorem escapedRune_range (tbl : Char → Bool) (plus : Bool) (r : Char) :
    ∀ ch ∈ (escapedRune tbl plus r).data,
      0x20 ≤ ch.toNat ∧ ch.toNat ≠ 0x7F ∧ (plus = true → ch.toNat < 0x7F) := by
  intro ch hch
  have hx : ∀ (pre : String) (w n : Nat), pre = "\\x" ∨ pre = "\\u" ∨ pre = "\\U" →
      ch ∈ (pre ++ hexDigits w n).data →
      0x20 ≤ ch.toNat ∧ ch.toNat ≠ 0x7F ∧ (plus = true → ch.toNat < 0x7F) := by
    intro pre w n hpre hmem
    rw [String.data_append, List.mem_append] at hmem
    rcases hmem with hmem | hmem
    · rcases hpre with rfl | rfl | rfl <;>
        · simp at hmem
          rcases hmem with rfl | rfl <;> exact ⟨by decide, by decide, fun _ => by decide⟩
    · have := hexDigits_range w n ch hmem
      exact ⟨this.1, by omega, fun _ => this.2⟩
  have h2 : ∀ (t : String), t = "\\a" ∨ t = "\\b" ∨ t = "\\f" ∨ t = "\\n" ∨ t = "\\r" ∨
      t = "\\t" ∨ t = "\\v" → ch ∈ t.data →
      0x20 ≤ ch.toNat ∧ ch.toNat ≠ 0x7F ∧ (plus = true → ch.toNat < 0x7F) := by
    intro t ht hmem
    rcases ht with rfl | rfl | rfl | rfl | rfl | rfl | rfl <;>
      · simp at hmem
        rcases hmem with rfl | rfl <;> exact ⟨by decide, by decide, fun _ => by decide⟩
  unfold escapedRune at hch
  split at hch
  · rename_i hq
    simp only [String.data_append, String.singleton, List.mem_append] at hch
    rcases hch with hch | hch
    · have : ch = '\\' := by simpa using hch
      subst this
      exact ⟨by decide, by decide, fun _ => by decide⟩
    · have : ch = r := by simpa using hch
      subst this
      rcases hq with rfl | rfl <;> exact ⟨by decide, by decide, fun _ => by decide⟩
  · split at hch
    · rename_i hp
      have : ch = r := by simpa [String.singleton] using hch
      subst this
      obtain ⟨_, h2', h3⟩ := hp
      have := IsPrint_range tbl ch h3
      exact ⟨by omega, by omega, fun _ => by omega⟩
    · split at hch
      · rename_i hp
        have : ch = r := by simpa [String.singleton] using hch
        subst this
        obtain ⟨h1, h3⟩ := hp
        have := IsPrint_range tbl ch h3
        exact ⟨by omega, by omega, fun hpl => by rw [hpl] at h1; cases h1⟩
      · split at hch
        · exact h2 _ (by simp) hch
        · exact h2 _ (by simp) hch
        · exact h2 _ (by simp) hch
        · exact h2 _ (by simp) hch
        · exact h2 _ (by simp) hch
        · exact h2 _ (by simp) hch
        · exact h2 _ (by simp) hch
        · split at hch
          · exact hx _ _ _ (by simp) hch
          · split at hch
            · exact hx _ _ _ (by simp) hch
            · exact hx _ _ _ (by simp) hch

theorem quotedBody_range (tbl : Char → Bool) (plus : Bool) (s : String) :
    ∀ ch ∈ (String.join (s.data.map (escapedRune tbl plus))).data,
      0x20 ≤ ch.toNat ∧ ch.toNat ≠ 0x7F ∧ (plus = true → ch.toNat < 0x7F) := by
  intro ch hch
  rw [join_data, List.mem_flatMap] at hch
  obtain ⟨t, ht, hmem⟩ := hch
  obtain ⟨r, _, rfl⟩ := List.mem_map.mp ht
  exact escapedRune_range tbl plus r ch hmem

/-- C8, counterexample: a value with the stringer capability whose `String()`
panics is written without double quotes, as the report of the panic. -/
theorem KVListFormat_stringer_panic_counterexample :
    KVListFormat noTable "" [.str "p", .stringerPanics "boom"] =
      .ok " p=%!q(PANIC=String method: boom)" := by
  decide

/-- C8, amended: `KVListFormat` writes a pair as a space, the key, `=` and the
value. The value is written inside double quotes with its code points escaped
(`%q`; `%+q`, escaped to ASCII, for a byte slice) when it is a string, a byte
slice, or an error or a value with a `String()` method whose method returns a
text, which is the text quoted. When `Error()` or `String()` panics the value is
written without quotes, as the report of the panic, or as `<nil>` for a nil
pointer receiver. Every other value is written without quotes as the verb `%+v`
writes it. Escaping puts a backslash before a double quote and a backslash,
writes a line feed as `\n`, leaves the other printable ASCII characters as they
are, and leaves no control character in the text; `%+q` leaves only ASCII. -/
theorem KVListFormat_dispatch (tbl : Char → Bool) (b : String) (k v : Value) :
    (∃ r, KVListFormat tbl b [k, v] = .ok (b ++ " " ++ verbS k ++ "=" ++ r) ∧
      (match v with
        | .str s => r = "\"" ++ String.join (s.data.map (escapedRune tbl false)) ++ "\""
        | .err msg => r = "\"" ++ String.join (msg.data.map (escapedRune tbl false)) ++ "\""
        | .errPanics shown => r = "%!q(PANIC=Error method: " ++ shown ++ ")"
        | .errNilPointer => r = "<nil>"
        | .bytes x => r = "\"" ++ String.join (x.data.map (escapedRune tbl true)) ++ "\""
        | .stringer text =>
          r = "\"" ++ String.join (text.data.map (escapedRune tbl false)) ++ "\""
        | .stringerPanics shown => r = "%!q(PANIC=String method: " ++ shown ++ ")"
        | .stringerNilPointer => r = "<nil>"
        | .nil => r = "<nil>"
        | .int n => r = toString n
        | .bool x => r = toString x
        | .named s => r = s)) ∧
    (∀ (plus : Bool) (c : Char), (c = '"' ∨ c = '\\') →
      escapedRune tbl plus c = "\\" ++ String.singleton c) ∧
    (∀ (plus : Bool), escapedRune tbl plus '\n' = "\\n") ∧
    (∀ (plus : Bool) (c : Char), (0x20 ≤ c.toNat ∧ c.toNat ≤ 0x7E ∧ c ≠ '"' ∧ c ≠ '\\') →
      escapedRune tbl plus c = String.singleton c) ∧
    (∀ (plus : Bool) (s : String), ∀ ch ∈ (String.join (s.data.map (escapedRune tbl plus))).data,
      0x20 ≤ ch.toNat ∧ ch.toNat ≠ 0x7F ∧ (plus = true → ch.toNat < 0x7F)) ∧
    KVListFormat tbl "" [.str "msg", .str "hello"] = .ok " msg=\"hello\"" ∧
    KVListFormat tbl "" [.str "n", .int 5] = .ok " n=5" ∧
    KVListFormat tbl "" [.str "err", .err "error text"] = .ok " err=\"error text\"" ∧
    KVListFormat tbl "" [.str "q", .str "a\"b\\c\nd\x01"] =
      .ok " q=\"a\\\"b\\\\c\\nd\\x01\"" ∧
    KVListFormat tbl "" [.str "b", .bytes "é\t"] = .ok " b=\"\\u00e9\\t\"" ∧
    KVListFormat tbl "" [.str "t", .named "raw text"] = .ok " t=raw text" := by
  refine ⟨?_, ?_, ?_, ?_, ?_, by rfl, by rfl, by rfl, by rfl, by rfl, by rfl⟩
  · have hr : KVListFormat tbl b [k, v] = .ok (b ++ " " ++ formatPair tbl k v) := by
      rw [KVListFormat_eq_render]
      simp only [pairsWith, renderPairs, String.append_assoc, String.append_empty]
    have hp : ∀ (m shown : String), ("%!q(PANIC=" ++ m ++ " method: " ++ shown ++ ")" : String) =
        panicText "q" m shown := by
      intro m shown
      simp only [panicText, String.append_assoc]
      rfl
    cases v with
    | nil => exact ⟨verbPlusV .nil, by rw [hr]; simp only [formatPair, String.append_assoc], rfl⟩
    | int n =>
      exact ⟨verbPlusV (.int n), by rw [hr]; simp only [formatPair, String.append_assoc], rfl⟩
    | bool x =>
      exact ⟨verbPlusV (.bool x), by rw [hr]; simp only [formatPair, String.append_assoc], rfl⟩
    | named s =>
      exact ⟨verbPlusV (.named s), by rw [hr]; simp only [formatPair, String.append_assoc], rfl⟩
    | str s =>
      exact ⟨fmtQ tbl false s, by rw [hr]; simp only [formatPair, String.append_assoc], rfl⟩
    | err m =>
      exact ⟨fmtQ tbl false m, by rw [hr]; simp only [formatPair, String.append_assoc], rfl⟩
    | stringer t =>
      exact ⟨fmtQ tbl false t, by rw [hr]; simp only [formatPair, String.append_assoc], rfl⟩
    | bytes x =>
      exact ⟨fmtQ tbl true x, by rw [hr]; simp only [formatPair, String.append_assoc], rfl⟩
    | errPanics shown =>
      exact ⟨panicText "q" "Error" shown,
        by rw [hr]; simp only [formatPair, String.append_assoc], (hp "Error" shown).symm⟩
    | stringerPanics shown =>
      exact ⟨panicText "q" "String" shown,
        by rw [hr]; simp only [formatPair, String.append_assoc], (hp "String" shown).symm⟩
    | errNilPointer =>
      exact ⟨"<nil>", by rw [hr]; simp only [formatPair, String.append_assoc], rfl⟩
    | stringerNilPointer =>
      exact ⟨"<nil>", by rw [hr]; simp only [formatPair, String.append_assoc], rfl⟩
  · intro plus c hc
    simp [escapedRune, hc]
  · intro plus
    cases plus <;> rfl
  · intro plus c hc
    obtain ⟨h1, h2, h3, h4⟩ := hc
    have hff : c.toNat ≤ 0xFF := by omega
    cases plus with
    | false => simp [escapedRune, IsPrint, h1, h2, h3, h4, hff]
    | true =>
      simp [escapedRune, IsPrint, h1, h2, h3, h4, hff]
      omega
  · exact quotedBody_range tbl

theorem KVListFormat_dispatch_witness :
    (('"' = '"' ∨ '"' = '\\') ∧
      escapedRune noTable false '"' = "\\" ++ String.singleton '"') ∧
    ((0x20 ≤ 'a'.toNat ∧ 'a'.toNat ≤ 0x7E ∧ 'a' ≠ '"' ∧ 'a' ≠ '\\') ∧
      escapedRune noTable true 'a' = String.singleton 'a') ∧
    ('n' ∈ (String.join ("\n".data.map (escapedRune noTable true))).data ∧
      0x20 ≤ 'n'.toNat ∧ 'n'.toNat ≠ 0x7F ∧ (true = true → 'n'.toNat < 0x7F)) :=
  ⟨⟨by decide,
      (KVListFormat_dispatch noTable "" (.str "k") (.str "v")).2.1 false '"' (by decide)⟩,
    ⟨by decide,
      (KVListFormat_dispatch noTable "" (.str "k") (.str "v")).2.2.2.1 true 'a' (by decide)⟩,
    ⟨by decide,
      (KVListFormat_dispatch noTable "" (.str "k") (.str "v")).2.2.2.2.1 true "\n" 'n'
        (by decide)⟩⟩

/-- C9: after `KVListFormat(b, items)` the buffer holds `b` followed, for each
pair of `items` in list order, by one space and the text of the pair, which is
the key, `=` and the value; an empty list leaves the buffer as it was. -/
theorem KVListFormat_appends (tbl : Char → Bool) (b : String) (items : List Value) :
    KVListFormat tbl b items =
      .ok (b ++ renderPairs tbl (pairsWith (.str missingValue) items)) ∧
    KVListFormat tbl b [] = .ok b ∧
    (∀ p rest, renderPairs tbl (p :: rest) =
      " " ++ formatPair tbl p.1 p.2 ++ renderPairs tbl rest) ∧
    renderPairs tbl [] = "" ∧
    ∀ k v, ∃ val, formatPair tbl k v = verbS k ++ "=" ++ val := by
  refine ⟨KVListFormat_eq_render tbl b items, ?_, fun _ _ => rfl, rfl, ?_⟩
  · rw [KVListFormat_eq_render]
    simp [pairsWith, renderPairs]
  · intro k v
    cases v with
    | nil => exact ⟨_, rfl⟩
    | int n => exact ⟨_, rfl⟩
    | bool x => exact ⟨_, rfl⟩
    | str s => exact ⟨_, rfl⟩
    | err m => exact ⟨_, rfl⟩
    | stringer t => exact ⟨_, rfl⟩
    | bytes x => exact ⟨_, rfl⟩
    | errPanics shown => exact ⟨_, rfl⟩
    | stringerPanics shown => exact ⟨_, rfl⟩
    | errNilPointer => exact ⟨_, rfl⟩
    | stringerNilPointer => exact ⟨_, rfl⟩
    | named s => exact ⟨_, rfl⟩

/-! ## Properties of Info -/

theorem string_length_pos (s : String) : s.length > 0 ↔ s ≠ "" := by
  cases s with
  | mk d =>
    cases d with
    | nil => simp [String.length]
    | cons c cs =>
      simp only [String.length, List.length_cons, gt_iff_lt, Nat.zero_lt_succ, true_iff]
      intro h
      have := congrArg String.data h
      simp at this

theorem log_eq (l : tlogger) (what msg buffer : String) :
    l.log what msg buffer =
      [SinkCall.Helper, SinkCall.Log ([Value.str what] ++
        (if l.pfx = "" then [] else [Value.str (l.pfx ++ ":")]) ++ [Value.str msg] ++
        (if buffer = "" then [] else [Value.str (String.mk (buffer.data.drop 1))]))] := by
  unfold tlogger.log
  by_cases hb : buffer = ""
  · have hl : ¬ buffer.length > 0 := fun h => (string_length_pos buffer).mp h hb
    by_cases hp : l.pfx = "" <;> simp [hp, hb, hl]
  · have hl : buffer.length > 0 := (string_length_pos buffer).mpr hb
    by_cases hp : l.pfx = "" <;> simp [hp, hb, hl]

theorem Info_eq (tbl : Char → Bool) (l : tlogger) (msg : String) (kv : List Value)
    (hk : HashableKeys [l.values, kv]) :
    l.Info tbl msg kv =
      .ok (SinkCall.Helper :: l.log "INFO" msg
        (renderPairs tbl (keepLast (keysOf kv) (pairsOf l.values)) ++
          renderPairs tbl (keepLast [] (pairsOf kv)))) := by
  have hspec := TrimDuplicates_eq_spec [l.values, kv] hk
  simp only [trimSpecFrom, List.flatMap_cons, List.flatMap_nil, List.append_nil] at hspec
  simp only [tlogger.Info, hspec, index, List.getElem?_cons_zero, List.getElem?_cons_succ,
    KVListFormat_eq_render, pairsWith_flat, String.empty_append]

/-- C7, counterexample: `Info("m", "a")` on a logger without values emits the
fields string `a=<nil>`: the trailing key is written with the nil value that
`TrimDuplicates` gave it and not with the placeholder `(MISSING)`. -/
theorem Info_trailing_key_counterexample :
    tlogger.Info noTable ⟨0, "", []⟩ "m" [.str "a"] =
      .ok [.Helper, .Helper, .Log [.str "INFO", .str "m", .str "a=<nil>"]] := by
  decide

/-- C7, amended: for a call-site list of odd length, `kv` followed by the key
`k`, with comparable keys, `Info` emits a fields string, which is the buffer
without its first character, and the buffer ends with a space, the key as the
verb `%s` writes it, and `=<nil>`. -/
theorem Info_trailing_key_nil (tbl : Char → Bool) (l : tlogger) (msg : String)
    (kv : List Value) (k : Value) (he : kv.length % 2 = 0)
    (hk : HashableKeys [l.values, kv ++ [k]]) :
    ∃ pre, l.Info tbl msg (kv ++ [k]) =
      .ok [.Helper, .Helper, .Log ([.str "INFO"] ++
        (if l.pfx = "" then [] else [.str (l.pfx ++ ":")]) ++
        [.str msg, .str (String.mk ((pre ++ " " ++ verbS k ++ "=<nil>").data.drop 1))])] := by
  refine ⟨renderPairs tbl (keepLast (keysOf (kv ++ [k])) (pairsOf l.values)) ++
    renderPairs tbl (keepLast [k] (pairsOf kv)), ?_⟩
  have hp : pairsOf (kv ++ [k]) = pairsOf kv ++ [(k, Value.nil)] :=
    pairsWith_snoc Value.nil kv k he
  have hr : renderPairs tbl [(k, Value.nil)] = " " ++ verbS k ++ "=<nil>" := by
    have e : ("=" ++ "<nil>" : String) = "=<nil>" := by decide
    simp only [renderPairs, formatPair, verbPlusV, String.append_assoc,
      String.append_empty]
    rw [e]
  have hb : renderPairs tbl (keepLast (keysOf (kv ++ [k])) (pairsOf l.values)) ++
      renderPairs tbl (keepLast [] (pairsOf (kv ++ [k]))) =
      renderPairs tbl (keepLast (keysOf (kv ++ [k])) (pairsOf l.values)) ++
        renderPairs tbl (keepLast [k] (pairsOf kv)) ++ " " ++ verbS k ++ "=<nil>" := by
    rw [hp, keepLast_snoc, if_neg (List.not_mem_nil _), renderPairs_append, hr]
    simp only [String.append_assoc]
  have hne : renderPairs tbl (keepLast (keysOf (kv ++ [k])) (pairsOf l.values)) ++
        renderPairs tbl (keepLast [k] (pairsOf kv)) ++ " " ++ verbS k ++ "=<nil>" ≠ "" := by
    intro h
    have := congrArg String.length h
    simp only [String.length_append] at this
    have h1 : (" " : String).length = 1 := by decide
    have h2 : ("" : String).length = 0 := by decide
    omega
  rw [Info_eq tbl l msg _ hk, log_eq, hb, if_neg hne]
  simp

theorem Info_trailing_key_nil_witness :
    [Value.str "a", Value.int 1].length % 2 = 0 ∧
    HashableKeys [(tlogger.mk 0 "p" [.str "b", .int 2]).values,
      [Value.str "a", Value.int 1] ++ [.str "b"]] ∧
    ∃ pre, (tlogger.mk 0 "p" [.str "b", .int 2]).Info noTable "m"
        ([Value.str "a", Value.int 1] ++ [.str "b"]) =
      .ok [.Helper, .Helper, .Log ([.str "INFO"] ++
        (if (tlogger.mk 0 "p" [.str "b", .int 2]).pfx = "" then []
         else [.str ((tlogger.mk 0 "p" [.str "b", .int 2]).pfx ++ ":")]) ++
        [.str "m", .str (String.mk
          ((pre ++ " " ++ verbS (.str "b") ++ "=<nil>").data.drop 1))])] :=
  ⟨by decide, by decide,
    Info_trailing_key_nil noTable (tlogger.mk 0 "p" [.str "b", .int 2]) "m"
      [.str "a", .int 1] (.str "b") (by decide) (by decide)⟩

theorem renderPairs_head (tbl : Char → Bool) (ps : List (Value × Value))
    (h : renderPairs tbl ps ≠ "") : (renderPairs tbl ps).data.head? = some ' ' := by
  cases ps with
  | nil => exact absurd rfl h
  | cons p rest => simp [renderPairs]

/-- C10: for a logger and a call-site list with comparable keys, `Info` calls
`Log` exactly once, after the two `Helper` calls, with the arguments `"INFO"`,
the prefix followed by `":"` when the prefix is not empty, `msg`, and, when the
buffer is not empty, the buffer without its first character, where the buffer
is what `KVListFormat` writes into an empty buffer for the first and then for
the second list that `TrimDuplicates(values, kv)` returns; that first character
is a space, which takes one byte. -/
theorem Info_record (tbl : Char → Bool) (l : tlogger) (msg : String) (kv : List Value)
    (hk : HashableKeys [l.values, kv]) :
    ∃ t0 t1 b0 buffer,
      TrimDuplicates [l.values, kv] = .ok [t0, t1] ∧
      KVListFormat tbl "" t0 = .ok b0 ∧
      KVListFormat tbl b0 t1 = .ok buffer ∧
      l.Info tbl msg kv =
        .ok [.Helper, .Helper, .Log ([.str "INFO"] ++
          (if l.pfx = "" then [] else [.str (l.pfx ++ ":")]) ++ [.str msg] ++
          (if buffer = "" then [] else [.str (String.mk (buffer.data.drop 1))]))] ∧
      (buffer ≠ "" → buffer.data.head? = some ' ') := by
  have hspec := TrimDuplicates_eq_spec [l.values, kv] hk
  simp only [trimSpecFrom, List.flatMap_cons, List.flatMap_nil, List.append_nil] at hspec
  refine ⟨_, _, _, _, hspec, KVListFormat_eq_render tbl _ _, KVListFormat_eq_render tbl _ _,
    ?_, ?_⟩
  · rw [Info_eq tbl l msg kv hk, log_eq]
    simp only [pairsWith_flat, String.empty_append]
  · simp only [pairsWith_flat, String.empty_append, ← renderPairs_append]
    exact renderPairs_head tbl _

theorem Info_record_witness :
    HashableKeys [(tlogger.mk 0 "p" [.str "pod", .str "nginx"]).values,
      [Value.str "pod", Value.str "busybox"]] ∧
    ∃ t0 t1 b0 buffer,
      TrimDuplicates [(tlogger.mk 0 "p" [.str "pod", .str "nginx"]).values,
        [Value.str "pod", Value.str "busybox"]] = .ok [t0, t1] ∧
      KVListFormat noTable "" t0 = .ok b0 ∧
      KVListFormat noTable b0 t1 = .ok buffer ∧
      (tlogger.mk 0 "p" [.str "pod", .str "nginx"]).Info noTable "started"
          [Value.str "pod", Value.str "busybox"] =
        .ok [.Helper, .Helper, .Log ([.str "INFO"] ++
          (if (tlogger.mk 0 "p" [.str "pod", .str "nginx"]).pfx = "" then []
           else [.str ((tlogger.mk 0 "p" [.str "pod", .str "nginx"]).pfx ++ ":")]) ++
          [.str "started"] ++
          (if buffer = "" then [] else [.str (String.mk (buffer.data.drop 1))]))] ∧
      (buffer ≠ "" → buffer.data.head? = some ' ') :=
  ⟨by decide, Info_record noTable (tlogger.mk 0 "p" [.str "pod", .str "nginx"]) "started"
    [.str "pod", .str "busybox"] (by decide)⟩

/-! ## Deduplication of a context pair by a call-site pair -/

theorem join_singletons (cs : List Char) :
    String.join (cs.map String.singleton) = String.mk cs := by
  have h : ∀ (cs : List Char) (acc : String),
      List.foldl (fun r s => r ++ s) acc (cs.map String.singleton) = acc ++ String.mk cs := by
    intro cs
    induction cs with
    | nil =>
      intro acc
      simp only [List.map_nil, List.foldl_nil]
      exact (String.append_empty acc).symm
    | cons c rest ih =>
      intro acc
      simp only [List.map_cons, List.foldl_cons]
      rw [ih]
      apply String.ext
      simp [String.singleton]
  have := h cs ""
  simpa [String.join] using this

theorem fmtQ_plain (tbl : Char → Bool) (s : String)
    (hp : ∀ c ∈ s.data, 0x20 ≤ c.toNat ∧ c.toNat ≤ 0x7E ∧ c ≠ '"' ∧ c ≠ '\\') :
    fmtQ tbl false s = "\"" ++ s ++ "\"" := by
  have hm : s.data.map (escapedRune tbl false) = s.data.map String.singleton := by
    apply List.map_congr_left
    intro c hc
    obtain ⟨h1, h2, h3, h4⟩ := hp c hc
    have hff : c.toNat ≤ 0xFF := by omega
    simp [escapedRune, IsPrint, h1, h2, h3, h4, hff]
  rw [fmtQ, hm, join_singletons]

theorem drop_one_space (s : String) : String.mk ((" " ++ s).data.drop 1) = s := by
  apply String.ext
  simp

/-- C11, counterexample: with the call-site value `a"b` the fields string is
`k="a\"b"`, the value escaped, and not `k=`, a double quote, the value and a
double quote. -/
theorem Info_call_site_literal_counterexample :
    (tlogger.mk 0 "" [.str "k", .str "v"]).Info noTable "m" [.str "k", .str "a\"b"] =
      .ok [.Helper, .Helper, .Log [.str "INFO", .str "m", .str "k=\"a\\\"b\""]] ∧
    ("k=\"a\\\"b\"" : String) ≠ "k=" ++ "\"" ++ "a\"b" ++ "\"" := by
  decide

/-- C11, amended: a logger whose values are the string key `k` with the string
`v1`, called as `Info(msg, k, v2)` with a string `v2`, emits the fields string
made of `k`, `=` and `v2` as the verb `%q` writes it, that is, inside double
quotes and escaped: the pair of the values is dropped and `v1` is not written.
When `v2` holds only printable ASCII characters other than the double quote and
the backslash, the text between the quotes is `v2` itself, as in
`pod="busybox"`. -/
theorem Info_call_site_wins (tbl : Char → Bool) (sink : Nat) (pfx msg k v1 v2 : String) :
    (tlogger.mk sink pfx [.str k, .str v1]).Info tbl msg [.str k, .str v2] =
      .ok [.Helper, .Helper, .Log ([.str "INFO"] ++
        (if pfx = "" then [] else [.str (pfx ++ ":")]) ++
        [.str msg, .str (k ++ "=" ++ fmtQ tbl false v2)])] ∧
    ((∀ c ∈ v2.data, 0x20 ≤ c.toNat ∧ c.toNat ≤ 0x7E ∧ c ≠ '"' ∧ c ≠ '\\') →
      fmtQ tbl false v2 = "\"" ++ v2 ++ "\"") ∧
    (tlogger.mk sink "" [.str "pod", .str "nginx"]).Info tbl "started"
        [.str "pod", .str "busybox"] =
      .ok [.Helper, .Helper, .Log [.str "INFO", .str "started", .str "pod=\"busybox\""]] := by
  have main : ∀ (pfx msg k v1 v2 : String),
      (tlogger.mk sink pfx [.str k, .str v1]).Info tbl msg [.str k, .str v2] =
        .ok [.Helper, .Helper, .Log ([.str "INFO"] ++
          (if pfx = "" then [] else [.str (pfx ++ ":")]) ++
          [.str msg, .str (k ++ "=" ++ fmtQ tbl false v2)])] := by
    intro pfx msg k v1 v2
    have hk : HashableKeys [[Value.str k, Value.str v1], [Value.str k, Value.str v2]] := by
      intro l hl x hx
      simp only [List.mem_cons, List.mem_singleton, List.not_mem_nil, or_false] at hl
      rcases hl with rfl | rfl <;>
        · simp only [keysOf, pairsOf, pairsWith, List.map_cons, List.map_nil,
            List.mem_singleton] at hx
          subst hx
          rfl
    have hb : renderPairs tbl (keepLast (keysOf [Value.str k, Value.str v2])
          (pairsOf [Value.str k, Value.str v1])) ++
        renderPairs tbl (keepLast [] (pairsOf [Value.str k, Value.str v2])) =
        " " ++ (k ++ "=" ++ fmtQ tbl false v2) := by
      simp [keysOf, pairsOf, pairsWith, keepLast, renderPairs, formatPair, verbS,
        String.append_assoc]
    have hne : (" " ++ (k ++ "=" ++ fmtQ tbl false v2) : String) ≠ "" := by
      intro h
      have := congrArg String.length h
      simp only [String.length_append] at this
      have h1 : (" " : String).length = 1 := by decide
      have h2 : ("" : String).length = 0 := by decide
      omega
    rw [Info_eq tbl _ msg _ hk, log_eq]
    simp only [hb, if_neg hne, drop_one_space]
    simp
  refine ⟨main pfx msg k v1 v2, fmtQ_plain tbl v2, ?_⟩
  have hq : ("pod" ++ "=" ++ fmtQ tbl false "busybox" : String) = "pod=\"busybox\"" := by
    rw [fmtQ_plain tbl "busybox" (by decide)]
    decide
  have := main "" "started" "pod" "nginx" "busybox"
  rw [hq] at this
  simpa using this

theorem Info_call_site_wins_witness :
    (∀ c ∈ "busybox".data, 0x20 ≤ c.toNat ∧ c.toNat ≤ 0x7E ∧ c ≠ '"' ∧ c ≠ '\\') ∧
    fmtQ noTable false "busybox" = "\"" ++ "busybox" ++ "\"" :=
  ⟨by decide,
    (Info_call_site_wins noTable 0 "" "started" "pod" "nginx" "busybox").2.1 (by decide)⟩

/-! ## Properties of Error -/

theorem formatPair_err (tbl : Char → Bool) (err : Option String) :
    formatPair tbl (.str "err") (errorValue err) = "err=" ++ errorText tbl err := by
  cases err with
  | none =>
    simp only [errorValue, formatPair, verbS, verbPlusV, errorText]
    decide
  | some m =>
    simp only [errorValue, formatPair, verbS, errorText]
    have e : ("err" ++ "=" : String) = "err=" := by decide
    rw [e]

theorem Error_eq (tbl : Char → Bool) (l : tlogger) (err : Option String) (msg : String)
    (kv : List Value) (hk : HashableKeys [l.values, kv]) :
    l.Error tbl err msg kv =
      .ok (SinkCall.Helper :: l.log "ERROR" msg
        (" " ++ ("err=" ++ errorText tbl err) ++
          (renderPairs tbl (keepLast (keysOf kv) (pairsOf l.values)) ++
            renderPairs tbl (keepLast [] (pairsOf kv))))) := by
  have hspec := TrimDuplicates_eq_spec [l.values, kv] hk
  simp only [trimSpecFrom, List.flatMap_cons, List.flatMap_nil, List.append_nil] at hspec
  simp only [tlogger.Error, hspec, index, List.getElem?_cons_zero, List.getElem?_cons_succ,
    KVListFormat_eq_render, pairsWith_flat, String.empty_append, pairsWith, renderPairs,
    formatPair_err, String.append_assoc, String.append_empty]

theorem append_ne_empty_left (a b : String) (h : a ≠ "") : a ++ b ≠ "" := by
  intro hab
  have h1 := congrArg String.length hab
  rw [String.length_append] at h1
  have h2 : ("" : String).length = 0 := by decide
  have h3 : ¬ a.length > 0 := by omega
  exact h ((not_not.mp (fun hne => h3 ((string_length_pos a).mpr hne))))

theorem space_append_ne_empty (s : String) : " " ++ s ≠ "" :=
  append_ne_empty_left " " s (by decide)

/-- C12: for a logger and a call-site list with comparable keys, `Error` calls
`Log` once with the level `"ERROR"`, and its fields string is `err=` with the
error as `KVListFormat` writes it, followed by the whole buffer that `Info`
builds for the same logger and list (each field of `Info` after one space). The
pair `"err"`, `err` is written before `TrimDuplicates` runs and takes no part in
it: a key `"err"` of the values or of the list is written as well. -/
theorem Error_record (tbl : Char → Bool) (l : tlogger) (err : Option String) (msg : String)
    (kv : List Value) (hk : HashableKeys [l.values, kv]) :
    (∃ t0 t1 b0 buffer,
      TrimDuplicates [l.values, kv] = .ok [t0, t1] ∧
      KVListFormat tbl "" t0 = .ok b0 ∧
      KVListFormat tbl b0 t1 = .ok buffer ∧
      l.Info tbl msg kv =
        .ok [.Helper, .Helper, .Log ([.str "INFO"] ++
          (if l.pfx = "" then [] else [.str (l.pfx ++ ":")]) ++ [.str msg] ++
          (if buffer = "" then [] else [.str (String.mk (buffer.data.drop 1))]))] ∧
      l.Error tbl err msg kv =
        .ok [.Helper, .Helper, .Log ([.str "ERROR"] ++
          (if l.pfx = "" then [] else [.str (l.pfx ++ ":")]) ++
          [.str msg, .str ("err=" ++ errorText tbl err ++ buffer)])]) ∧
    (tlogger.mk 0 "" [.str "err", .int 1]).Error noTable (some "boom") "m"
        [.str "err", .int 2, .str "a", .int 3] =
      .ok [.Helper, .Helper,
        .Log [.str "ERROR", .str "m", .str "err=\"boom\" err=2 a=3"]] := by
  refine ⟨?_, by decide⟩
  have hspec := TrimDuplicates_eq_spec [l.values, kv] hk
  simp only [trimSpecFrom, List.flatMap_cons, List.flatMap_nil, List.append_nil] at hspec
  refine ⟨_, _, _, _, hspec, KVListFormat_eq_render tbl _ _, KVListFormat_eq_render tbl _ _,
    ?_, ?_⟩
  · rw [Info_eq tbl l msg kv hk, log_eq]
    simp only [pairsWith_flat, String.empty_append]
  · have hne : " " ++ ("err=" ++ errorText tbl err) ++
        (renderPairs tbl (keepLast (keysOf kv) (pairsOf l.values)) ++
          renderPairs tbl (keepLast [] (pairsOf kv))) ≠ "" := by
      rw [String.append_assoc]
      exact space_append_ne_empty _
    rw [Error_eq tbl l err msg kv hk, log_eq]
    simp only [if_neg hne]
    simp only [pairsWith_flat, String.empty_append, String.append_assoc, drop_one_space]
    simp

theorem Error_record_witness :
    HashableKeys [(tlogger.mk 0 "p" [.str "pod", .str "nginx"]).values,
      [Value.str "err", Value.int 2]] ∧
    ((∃ t0 t1 b0 buffer,
      TrimDuplicates [(tlogger.mk 0 "p" [.str "pod", .str "nginx"]).values,
        [Value.str "err", Value.int 2]] = .ok [t0, t1] ∧
      KVListFormat noTable "" t0 = .ok b0 ∧
      KVListFormat noTable b0 t1 = .ok buffer ∧
      (tlogger.mk 0 "p" [.str "pod", .str "nginx"]).Info noTable "m"
          [Value.str "err", Value.int 2] =
        .ok [.Helper, .Helper, .Log ([.str "INFO"] ++
          (if (tlogger.mk 0 "p" [.str "pod", .str "nginx"]).pfx = "" then []
           else [.str ((tlogger.mk 0 "p" [.str "pod", .str "nginx"]).pfx ++ ":")]) ++
          [.str "m"] ++
          (if buffer = "" then [] else [.str (String.mk (buffer.data.drop 1))]))] ∧
      (tlogger.mk 0 "p" [.str "pod", .str "nginx"]).Error noTable none "m"
          [Value.str "err", Value.int 2] =
        .ok [.Helper, .Helper, .Log ([.str "ERROR"] ++
          (if (tlogger.mk 0 "p" [.str "pod", .str "nginx"]).pfx = "" then []
           else [.str ((tlogger.mk 0 "p" [.str "pod", .str "nginx"]).pfx ++ ":")]) ++
          [.str "m", .str ("err=" ++ errorText noTable none ++ buffer)])]) ∧
    (tlogger.mk 0 "" [.str "err", .int 1]).Error noTable (some "boom") "m"
        [.str "err", .int 2, .str "a", .int 3] =
      .ok [.Helper, .Helper,
        .Log [.str "ERROR", .str "m", .str "err=\"boom\" err=2 a=3"]]) :=
  ⟨by decide, Error_record noTable (tlogger.mk 0 "p" [.str "pod", .str "nginx"]) none "m"
    [.str "err", .int 2] (by decide)⟩

/-- C19: for a logger and a call-site list with comparable keys, the buffer that
`Info` hands to `log`, when it is not empty, starts with the space that
`KVListFormat` wrote, and the buffer that `Error` hands to `log` is never empty
and starts with that space; so `log` removes the separator, and `Error` always
passes a fields argument to `Log`. -/
theorem log_removes_separator (tbl : Char → Bool) (l : tlogger) (err : Option String)
    (msg : String) (kv : List Value) (hk : HashableKeys [l.values, kv]) :
    ∃ t0 t1 b0 bInfo e0 e1 bError,
      TrimDuplicates [l.values, kv] = .ok [t0, t1] ∧
      KVListFormat tbl "" t0 = .ok b0 ∧
      KVListFormat tbl b0 t1 = .ok bInfo ∧
      l.Info tbl msg kv = .ok (.Helper :: l.log "INFO" msg bInfo) ∧
      (bInfo ≠ "" → bInfo.data.head? = some ' ') ∧
      KVListFormat tbl "" [.str "err", errorValue err] = .ok e0 ∧
      KVListFormat tbl e0 t0 = .ok e1 ∧
      KVListFormat tbl e1 t1 = .ok bError ∧
      l.Error tbl err msg kv = .ok (.Helper :: l.log "ERROR" msg bError) ∧
      bError ≠ "" ∧ bError.data.head? = some ' ' ∧
      l.log "ERROR" msg bError =
        [.Helper, .Log ([.str "ERROR"] ++ (if l.pfx = "" then [] else [.str (l.pfx ++ ":")]) ++
          [.str msg, .str (String.mk (bError.data.drop 1))])] := by
  have hspec := TrimDuplicates_eq_spec [l.values, kv] hk
  simp only [trimSpecFrom, List.flatMap_cons, List.flatMap_nil, List.append_nil] at hspec
  have hne : "" ++ renderPairs tbl (pairsWith (Value.str missingValue)
        [Value.str "err", errorValue err]) ++
      renderPairs tbl (pairsWith (Value.str missingValue)
        (flat (keepLast (keysOf kv) (pairsOf l.values)))) ++
      renderPairs tbl (pairsWith (Value.str missingValue)
        (flat (keepLast [] (pairsOf kv)))) ≠ "" := by
    simp only [pairsWith, renderPairs, String.empty_append, String.append_assoc]
    exact space_append_ne_empty _
  refine ⟨_, _, _, _, _, _, _, hspec, KVListFormat_eq_render tbl _ _,
    KVListFormat_eq_render tbl _ _, ?_, ?_, KVListFormat_eq_render tbl _ _,
    KVListFormat_eq_render tbl _ _, KVListFormat_eq_render tbl _ _, ?_, hne, ?_, ?_⟩
  · rw [Info_eq tbl l msg kv hk]
    simp only [pairsWith_flat, String.empty_append]
  · simp only [pairsWith_flat, String.empty_append, ← renderPairs_append]
    exact renderPairs_head tbl _
  · rw [Error_eq tbl l err msg kv hk]
    simp only [pairsWith_flat, String.empty_append, pairsWith, renderPairs, formatPair_err,
      String.append_assoc, String.append_empty]
  · simp [pairsWith, renderPairs]
  · rw [log_eq, if_neg hne]
    simp

theorem log_removes_separator_witness :
    HashableKeys [(tlogger.mk 0 "p" [.str "pod", .str "nginx"]).values,
      [Value.str "a", Value.int 2]] ∧
    ∃ t0 t1 b0 bInfo e0 e1 bError,
      TrimDuplicates [(tlogger.mk 0 "p" [.str "pod", .str "nginx"]).values,
        [Value.str "a", Value.int 2]] = .ok [t0, t1] ∧
      KVListFormat noTable "" t0 = .ok b0 ∧
      KVListFormat noTable b0 t1 = .ok bInfo ∧
      (tlogger.mk 0 "p" [.str "pod", .str "nginx"]).Info noTable "m"
          [Value.str "a", Value.int 2] =
        .ok (.Helper :: (tlogger.mk 0 "p" [.str "pod", .str "nginx"]).log "INFO" "m" bInfo) ∧
      (bInfo ≠ "" → bInfo.data.head? = some ' ') ∧
      KVListFormat noTable "" [.str "err", errorValue (some "boom")] = .ok e0 ∧
      KVListFormat noTable e0 t0 = .ok e1 ∧
      KVListFormat noTable e1 t1 = .ok bError ∧
      (tlogger.mk 0 "p" [.str "pod", .str "nginx"]).Error noTable (some "boom") "m"
          [Value.str "a", Value.int 2] =
        .ok (.Helper ::
          (tlogger.mk 0 "p" [.str "pod", .str "nginx"]).log "ERROR" "m" bError) ∧
      bError ≠ "" ∧ bError.data.head? = some ' ' ∧
      (tlogger.mk 0 "p" [.str "pod", .str "nginx"]).log "ERROR" "m" bError =
        [.Helper, .Log ([.str "ERROR"] ++
          (if (tlogger.mk 0 "p" [.str "pod", .str "nginx"]).pfx = "" then []
           else [.str ((tlogger.mk 0 "p" [.str "pod", .str "nginx"]).pfx ++ ":")]) ++
          [.str "m", .str (String.mk (bError.data.drop 1))])] :=
  ⟨by decide, log_removes_separator noTable (tlogger.mk 0 "p" [.str "pod", .str "nginx"])
    (some "boom") "m" [.str "a", .int 2] (by decide)⟩

/-! ## Totality -/

theorem trimStep_total (kvList : List Value) (i m : Nat) (p : Value × Value)
    (seen : List Value) (outs : List (List Value)) (hp : (pairsOf kvList)[m]? = some p)
    (hi : i < outs.length) :
    (p.1.hashable = false ∧
      trimStep kvList i (2 * m) ⟨seen, outs⟩ = .error .unhashableKey) ∨
    (p.1.hashable = true ∧ ∃ st', trimStep kvList i (2 * m) ⟨seen, outs⟩ = .ok st' ∧
      st'.outs.length = outs.length) := by
  cases hh : p.1.hashable with
  | false =>
    left
    obtain ⟨h1, _⟩ := pairsWith_getElem? Value.nil kvList m p hp
    exact ⟨rfl, by simp [trimStep, index, h1, hh]⟩
  | true =>
    right
    refine ⟨rfl, ?_⟩
    by_cases hs : p.1 ∈ seen
    · exact ⟨_, trimStep_seen kvList i m p seen outs hp hh hs, rfl⟩
    · exact ⟨_, trimStep_new kvList i m p seen outs outs[i] hp hh hs
        (List.getElem?_eq_getElem hi), by simp⟩

theorem trimPairs_total (kvList : List Value) (i : Nat) :
    ∀ (m : Nat), m ≤ (pairsOf kvList).length → ∀ (st : TrimState), i < st.outs.length →
      (trimPairs kvList i (2 * m) st = .error .unhashableKey ∧
        ∃ k ∈ ((pairsOf kvList).take m).map Prod.fst, k.hashable = false) ∨
      ((∃ st', trimPairs kvList i (2 * m) st = .ok st' ∧ st'.outs.length = st.outs.length) ∧
        ∀ k ∈ ((pairsOf kvList).take m).map Prod.fst, k.hashable = true) := by
  intro m
  induction m with
  | zero =>
    intro _ st _
    right
    exact ⟨⟨st, by simp [trimPairs], rfl⟩, by simp⟩
  | succ m ih =>
    intro hm st hi
    have hlt : m < (pairsOf kvList).length := hm
    have hp : (pairsOf kvList)[m]? = some ((pairsOf kvList)[m]) := List.getElem?_eq_getElem hlt
    generalize (pairsOf kvList)[m] = p at hp
    have htake : (pairsOf kvList).take (m + 1) = (pairsOf kvList).take m ++ [p] := by
      rw [List.take_succ, hp]; rfl
    have e2 : 2 * (m + 1) = 2 * m + 2 := by omega
    rw [e2, trimPairs, htake]
    rcases trimStep_total kvList i m p st.seenKeys st.outs hp hi with
      ⟨hh, he⟩ | ⟨hh, st', hs, hl⟩
    · left
      rw [he]
      exact ⟨rfl, p.1, by simp, hh⟩
    · rw [hs]
      simp only
      rcases ih (Nat.le_of_lt hlt) st' (by omega) with
        ⟨he, k, hk, hkh⟩ | ⟨⟨st'', h1, h2⟩, hall⟩
      · left
        refine ⟨he, k, ?_, hkh⟩
        simp only [List.map_append, List.mem_append]
        exact Or.inl hk
      · right
        refine ⟨⟨st'', h1, by omega⟩, ?_⟩
        intro k hk
        simp only [List.map_append, List.map_cons, List.map_nil, List.mem_append,
          List.mem_singleton] at hk
        rcases hk with hk | rfl
        · exact hall k hk
        · exact hh

theorem trimLists_total (g : List (List Value)) :
    ∀ (n : Nat), n ≤ g.length → ∀ (st : TrimState), st.outs.length = g.length →
      (trimLists g n st = .error .unhashableKey ∧ ¬ HashableKeys (g.take n)) ∨
      ((∃ st', trimLists g n st = .ok st' ∧ st'.outs.length = g.length) ∧
        HashableKeys (g.take n)) := by
  intro n
  induction n with
  | zero =>
    intro _ st hl
    right
    exact ⟨⟨st, by simp [trimLists], hl⟩, by simp [HashableKeys]⟩
  | succ n ih =>
    intro hn st hl
    have hlt : n < g.length := hn
    have hg : g[n]? = some g[n] := List.getElem?_eq_getElem hlt
    generalize g[n] = l at hg
    have hno : n < st.outs.length := by omega
    have hstart : l.length + l.length % 2 = 2 * (pairsOf l).length := pairsWith_length _ l
    have hfull : (pairsOf l).take (pairsOf l).length = pairsOf l := List.take_length _
    have htake : g.take (n + 1) = g.take n ++ [l] := by
      rw [List.take_succ, hg]; rfl
    simp only [trimLists, assign, hno, if_true, index, hg, hstart]
    rcases trimPairs_total l n (pairsOf l).length (Nat.le_refl _)
        ⟨st.seenKeys, st.outs.set n []⟩ (by simpa using hno) with
      ⟨he, k, hk, hkh⟩ | ⟨⟨st', h1, h2⟩, hall⟩
    · left
      rw [he]
      refine ⟨rfl, ?_⟩
      intro hH
      rw [hfull] at hk
      have := hH l (by rw [htake]; simp) k hk
      rw [hkh] at this
      cases this
    · rw [h1]
      simp only
      have hl' : st'.outs.length = g.length := by
        rw [h2]; simpa using hl
      rw [hfull] at hall
      rcases ih (Nat.le_of_lt hlt) st' hl' with ⟨he, hnh⟩ | ⟨hex, hH⟩
      · left
        refine ⟨he, ?_⟩
        intro hH
        apply hnh
        intro l' hl' k hk
        exact hH l' (by rw [htake]; exact List.mem_append_left _ hl') k hk
      · right
        refine ⟨hex, ?_⟩
        intro l' hl' k hk
        rw [htake, List.mem_append, List.mem_singleton] at hl'
        rcases hl' with hl' | rfl
        · exact hH l' hl' k hk
        · exact hall k hk

theorem TrimDuplicates_total (g : List (List Value)) :
    (TrimDuplicates g = .error .unhashableKey ∧ ¬ HashableKeys g) ∨
    ((∃ outs, TrimDuplicates g = .ok outs) ∧ HashableKeys g) := by
  rcases trimLists_total g g.length (Nat.le_refl _) ⟨[], List.replicate g.length []⟩
      (by simp) with ⟨he, hn⟩ | ⟨⟨st', h1, _⟩, hH⟩
  · left
    rw [List.take_length] at hn
    exact ⟨by simp [TrimDuplicates, he], hn⟩
  · right
    rw [List.take_length] at hH
    exact ⟨⟨st'.outs, by simp [TrimDuplicates, h1]⟩, hH⟩

/-- C15, counterexample: on a list whose key is a byte slice, `TrimDuplicates`
stops with the failure of the map access on an unhashable key. -/
theorem TrimDuplicates_unhashable_counterexample :
    TrimDuplicates [[.bytes "k", .int 1]] = .error .unhashableKey := by
  decide

/-- C15, amended: `TrimDuplicates` returns a result for every group whose keys
are comparable values, whatever the lengths of the lists and whatever the
values; it fails exactly when a key is not hashable, with the failure of the
map access, and never with an index out of bounds. `KVListFormat` returns a
result for every buffer and every list. -/
theorem TrimDuplicates_KVListFormat_total (kvLists : List (List Value)) (tbl : Char → Bool)
    (b : String) (keysAndValues : List Value) :
    (HashableKeys kvLists → ∃ outs, TrimDuplicates kvLists = .ok outs) ∧
    (¬ HashableKeys kvLists → TrimDuplicates kvLists = .error .unhashableKey) ∧
    TrimDuplicates kvLists ≠ .error .indexOutOfRange ∧
    ∃ b', KVListFormat tbl b keysAndValues = .ok b' := by
  refine ⟨?_, ?_, ?_, _, KVListFormat_eq_render tbl b keysAndValues⟩
  · intro hk
    exact ⟨_, TrimDuplicates_eq_spec kvLists hk⟩
  · intro hn
    rcases TrimDuplicates_total kvLists with ⟨he, _⟩ | ⟨_, hH⟩
    · exact he
    · exact absurd hH hn
  · rcases TrimDuplicates_total kvLists with ⟨he, _⟩ | ⟨⟨outs, ho⟩, _⟩
    · rw [he]; decide
    · rw [ho]; intro h; cases h

theorem TrimDuplicates_KVListFormat_total_witness :
    (HashableKeys [[], [.str "a"], [.nil, .bytes "v", .int 1]] ∧
      ∃ outs, TrimDuplicates [[], [.str "a"], [.nil, .bytes "v", .int 1]] = .ok outs) ∧
    (¬ HashableKeys [[.str "a", .int 1], [.bytes "k"]] ∧
      TrimDuplicates [[.str "a", .int 1], [.bytes "k"]] = .error .unhashableKey) :=
  ⟨⟨by decide,
     (TrimDuplicates_KVListFormat_total [[], [.str "a"], [.nil, .bytes "v", .int 1]]
       noTable "" []).1 (by decide)⟩,
   ⟨by decide,
     (TrimDuplicates_KVListFormat_total [[.str "a", .int 1], [.bytes "k"]]
       noTable "" []).2.1 (by decide)⟩⟩

/-! ## Keys of the deduplicated group -/

theorem mem_keepLast_map (seen : List Value) (ps : List (Value × Value)) (k : Value) :
    k ∈ (keepLast seen ps).map Prod.fst ↔ k ∈ ps.map Prod.fst ∧ k ∉ seen := by
  have h1 := mem_keepLast_keys seen ps k
  rw [List.mem_append] at h1
  constructor
  · intro hk
    have hns : k ∉ seen := by
      obtain ⟨p, hp, rfl⟩ := List.mem_map.mp hk
      exact keepLast_not_seen seen ps p hp
    exact ⟨(h1.mp (Or.inl hk)).resolve_right hns, hns⟩
  · rintro ⟨hk, hns⟩
    exact (h1.mpr (Or.inl hk)).resolve_right hns

theorem keepLast_keys_nodup (seen : List Value) (ps : List (Value × Value)) :
    ((keepLast seen ps).map Prod.fst).Nodup := by
  induction ps with
  | nil => simp [keepLast]
  | cons p rest ih =>
    simp only [keepLast]
    split
    · exact ih
    · rename_i hc
      rw [List.map_cons, List.nodup_cons]
      refine ⟨?_, ih⟩
      intro hm
      exact hc (Or.inl ((mem_keepLast_map seen rest p.1).mp hm).1)

theorem mem_trimSpecFrom_keys (seen : List Value) (g : List (List Value)) (k : Value) :
    k ∈ (trimSpecFrom seen g).flatMap keysOf ↔ k ∈ g.flatMap keysOf ∧ k ∉ seen := by
  induction g with
  | nil => simp [trimSpecFrom]
  | cons l rest ih =>
    simp only [trimSpecFrom, List.flatMap_cons, List.mem_append, keysOf_flat, mem_keepLast_map,
      ih]
    simp only [keysOf]
    tauto

theorem trimSpecFrom_keys_nodup (seen : List Value) (g : List (List Value)) :
    ((trimSpecFrom seen g).flatMap keysOf).Nodup := by
  induction g with
  | nil => simp [trimSpecFrom]
  | cons l rest ih =>
    simp only [trimSpecFrom, List.flatMap_cons, keysOf_flat]
    rw [List.nodup_append]
    refine ⟨keepLast_keys_nodup _ _, ih, ?_⟩
    intro k hk1 hk2
    have h1 := ((mem_keepLast_map _ _ k).mp hk1).2
    have h2 := ((mem_trimSpecFrom_keys seen rest k).mp hk2).1
    exact h1 (List.mem_append_left _ h2)

/-- C16: for a group with comparable keys, every key of an input list is a key
exactly once in the output lists taken together, and every key of an output list
is a key of an input list. -/
theorem TrimDuplicates_keys_once (kvLists : List (List Value)) (hk : HashableKeys kvLists) :
    ∃ outs, TrimDuplicates kvLists = .ok outs ∧
      (∀ k ∈ kvLists.flatMap keysOf, (outs.flatMap keysOf).count k = 1) ∧
      (∀ k ∈ outs.flatMap keysOf, k ∈ kvLists.flatMap keysOf) := by
  refine ⟨_, TrimDuplicates_eq_spec kvLists hk, ?_, ?_⟩
  · intro k hmem
    apply List.count_eq_one_of_mem (trimSpecFrom_keys_nodup [] kvLists)
    exact (mem_trimSpecFrom_keys [] kvLists k).mpr ⟨hmem, List.not_mem_nil _⟩
  · intro k hmem
    exact ((mem_trimSpecFrom_keys [] kvLists k).mp hmem).1

theorem TrimDuplicates_keys_once_witness :
    HashableKeys [[.str "a", .int 1, .str "b", .int 2, .str "a"], [.str "b", .int 3]] ∧
    ∃ outs, TrimDuplicates [[.str "a", .int 1, .str "b", .int 2, .str "a"], [.str "b", .int 3]]
        = .ok outs ∧
      (∀ k ∈ [[Value.str "a", .int 1, .str "b", .int 2, .str "a"],
          [.str "b", .int 3]].flatMap keysOf, (outs.flatMap keysOf).count k = 1) ∧
      (∀ k ∈ outs.flatMap keysOf,
        k ∈ [[Value.str "a", .int 1, .str "b", .int 2, .str "a"],
          [.str "b", .int 3]].flatMap keysOf) :=
  ⟨by decide, TrimDuplicates_keys_once _ (by decide)⟩

theorem flat_length (ps : List (Value × Value)) : (flat ps).length = 2 * ps.length := by
  induction ps with
  | nil => rfl
  | cons p rest ih =>
    have : flat (p :: rest) = p.1 :: p.2 :: flat rest := by simp [flat]
    rw [this]
    simp only [List.length_cons, ih]
    omega

theorem trimSpecFrom_mem_flat (seen : List Value) (g : List (List Value)) :
    ∀ out ∈ trimSpecFrom seen g, ∃ ps, out = flat ps := by
  induction g with
  | nil => intro out h; simp [trimSpecFrom] at h
  | cons l rest ih =>
    intro out h
    simp only [trimSpecFrom, List.mem_cons] at h
    rcases h with rfl | h
    · exact ⟨_, rfl⟩
    · exact ih out h

/-- C17: for a group with comparable keys, every output list of `TrimDuplicates`
has even length; the last element `k` of an odd-length input list `i` takes part
in the deduplication as a key (it is a key of output list `i` exactly when it is
not a key of a later list), and when it is a key of output list `i`, that list
ends with `k` followed by nil. -/
theorem TrimDuplicates_even_length (kvLists : List (List Value)) (hk : HashableKeys kvLists) :
    ∃ outs, TrimDuplicates kvLists = .ok outs ∧
      (∀ out ∈ outs, out.length % 2 = 0) ∧
      ∀ (i : Nat) (items : List Value) (k : Value),
        kvLists[i]? = some (items ++ [k]) → items.length % 2 = 0 →
        (k ∈ keysOf (outs.getD i []) ↔ k ∉ (kvLists.drop (i + 1)).flatMap keysOf) ∧
        (k ∈ keysOf (outs.getD i []) → ∃ front, outs.getD i [] = front ++ [k, Value.nil]) := by
  refine ⟨_, TrimDuplicates_eq_spec kvLists hk, ?_, ?_⟩
  · intro out hout
    obtain ⟨ps, rfl⟩ := trimSpecFrom_mem_flat [] kvLists out hout
    rw [flat_length]
    omega
  · intro i items k hi he
    have hlt : i < kvLists.length := by
      rcases Nat.lt_or_ge i kvLists.length with h | h
      · exact h
      · rw [List.getElem?_eq_none h] at hi; cases hi
    have hgd : kvLists.getD i [] = items ++ [k] := by
      simp [List.getD, hi]
    have hp : pairsOf (items ++ [k]) = pairsOf items ++ [(k, Value.nil)] :=
      pairsWith_snoc Value.nil items k he
    have hiff : k ∈ keysOf ((trimSpecFrom [] kvLists).getD i []) ↔
        k ∉ (kvLists.drop (i + 1)).flatMap keysOf := by
      rw [trimSpecFrom_getD [] kvLists i hlt, hgd, keysOf_flat, mem_keepLast_map, hp]
      simp
    refine ⟨hiff, ?_⟩
    intro hmem
    have hns := hiff.mp hmem
    rw [trimSpecFrom_getD [] kvLists i hlt, hgd, hp, keepLast_snoc, if_neg (by simpa using hns),
      flat_append]
    exact ⟨_, rfl⟩

theorem TrimDuplicates_even_length_witness :
    HashableKeys [[.str "a", .int 1, .str "b"], [.str "c"]] ∧
    ∃ outs, TrimDuplicates [[.str "a", .int 1, .str "b"], [.str "c"]] = .ok outs ∧
      (∀ out ∈ outs, out.length % 2 = 0) ∧
      ∀ (i : Nat) (items : List Value) (k : Value),
        [[Value.str "a", .int 1, .str "b"], [.str "c"]][i]? = some (items ++ [k]) →
        items.length % 2 = 0 →
        (k ∈ keysOf (outs.getD i []) ↔
          k ∉ ([[Value.str "a", .int 1, .str "b"], [.str "c"]].drop (i + 1)).flatMap keysOf) ∧
        (k ∈ keysOf (outs.getD i []) → ∃ front, outs.getD i [] = front ++ [k, Value.nil]) :=
  ⟨by decide, TrimDuplicates_even_length _ (by decide)⟩

theorem keepLast_filter_absent (seen : List Value) (k : Value) (ps : List (Value × Value))
    (h : k ∉ ps.map Prod.fst ∨ k ∈ seen) :
    (keepLast seen ps).filter (fun p => decide (p.1 = k)) = [] := by
  rw [List.filter_eq_nil_iff]
  intro p hp
  simp only [decide_eq_true_eq]
  intro hpk
  rcases h with h | h
  · apply h
    rw [← hpk]
    exact List.mem_map_of_mem _ ((keepLast_sublist seen ps).subset hp)
  · exact keepLast_not_seen seen ps p hp (hpk ▸ h)

theorem trimSpecFrom_filter_absent (seen : List Value) (k : Value) (g : List (List Value))
    (h : k ∉ g.flatMap keysOf) :
    ∀ j, (pairsOf ((trimSpecFrom seen g).getD j [])).filter (fun p => decide (p.1 = k)) = [] := by
  induction g with
  | nil => intro j; simp [trimSpecFrom, pairsOf, pairsWith]
  | cons l rest ih =>
    intro j
    simp only [List.flatMap_cons, List.mem_append, not_or] at h
    cases j with
    | zero =>
      simp only [trimSpecFrom, List.getD_cons_zero, pairsOf_flat]
      exact keepLast_filter_absent _ k _ (Or.inl h.1)
    | succ j =>
      simp only [trimSpecFrom, List.getD_cons_succ]
      exact ih h.2 j

theorem trimSpecFrom_filter_key (seen : List Value) (k v : Value) (B : List Value)
    (post : List (List Value)) (hv : lastValue k (pairsOf B) = some v)
    (hpost : k ∉ post.flatMap keysOf) (hs : k ∉ seen) :
    ∀ (pre : List (List Value)) (j : Nat),
      (pairsOf ((trimSpecFrom seen (pre ++ B :: post)).getD j [])).filter
          (fun p => decide (p.1 = k)) =
        if j = pre.length then [(k, v)] else [] := by
  have hB : k ∈ keysOf B := by
    by_contra hn
    rw [(lastValue_eq_none k (pairsOf B)).mpr hn] at hv
    cases hv
  intro pre
  induction pre with
  | nil =>
    intro j
    cases j with
    | zero =>
      simp only [List.nil_append, trimSpecFrom, List.getD_cons_zero, pairsOf_flat,
        List.length_nil, if_true]
      have := keepLast_filter_key (post.flatMap keysOf ++ seen) k
        (by simp only [List.mem_append, not_or]; exact ⟨hpost, hs⟩) (pairsOf B)
      rw [hv] at this
      exact this
    | succ j =>
      simp only [List.nil_append, trimSpecFrom, List.getD_cons_succ, List.length_nil]
      rw [if_neg (by omega)]
      exact trimSpecFrom_filter_absent seen k post hpost j
  | cons l pre ih =>
    intro j
    cases j with
    | zero =>
      rw [List.cons_append, trimSpecFrom, List.getD_cons_zero, pairsOf_flat, List.length_cons,
        if_neg (by omega)]
      apply keepLast_filter_absent
      right
      simp only [List.flatMap_append, List.flatMap_cons, List.mem_append]
      exact Or.inl (Or.inr (Or.inl hB))
    | succ j =>
      rw [List.cons_append, trimSpecFrom, List.getD_cons_succ, ih j, List.length_cons]
      simp

theorem lastValue_append (x : Value) (a b : List (Value × Value)) :
    lastValue x (a ++ b) =
      match lastValue x b with
      | some v => some v
      | none => lastValue x a := by
  induction a with
  | nil =>
    simp only [List.nil_append, lastValue]
    cases lastValue x b <;> rfl
  | cons p rest ih =>
    rw [List.cons_append, lastValue, ih, lastValue]
    cases lastValue x b <;> rfl

theorem pairsWith_append_even (d : Value) (l1 l2 : List Value) (he : l1.length % 2 = 0) :
    pairsWith d (l1 ++ l2) = pairsWith Value.nil l1 ++ pairsWith d l2 := by
  induction l1 using pairsWith.induct d with
  | case1 => simp [pairsWith]
  | case2 k' => simp at he
  | case3 k' v rest ih =>
    have he' : rest.length % 2 = 0 := by
      simp only [List.length_cons] at he; omega
    rw [List.cons_append, List.cons_append, pairsWith, pairsWith, ih he']
    rfl

/-- C18: in a group with comparable keys, let `B` be the last list that has the
key `k`. Then the output lists hold one pair keyed `k` in all, in the output for
`B`, with the value `v` of the last pair keyed `k` of `B`, whatever the earlier
pairs and the earlier lists give to `k`: when `k` is the unpaired last element
of `B`, `v` is nil, and when the last pair keyed `k` of `B` has the value `w`,
`v` is `w`, also when `k` is an unpaired last element of an earlier list. -/
theorem TrimDuplicates_last_occurrence_wins (before after : List (List Value))
    (B : List Value) (k : Value) (hk : HashableKeys (before ++ B :: after))
    (hB : k ∈ keysOf B) (hafter : k ∉ after.flatMap keysOf) :
    ∃ outs v, TrimDuplicates (before ++ B :: after) = .ok outs ∧
      lastValue k (pairsOf B) = some v ∧
      (∀ j, (pairsOf (outs.getD j [])).filter (fun p => decide (p.1 = k)) =
        if j = before.length then [(k, v)] else []) ∧
      (∀ items, B = items ++ [k] → items.length % 2 = 0 → v = Value.nil) ∧
      (∀ front w back, B = front ++ [k, w] ++ back → front.length % 2 = 0 →
        k ∉ keysOf back → v = w) := by
  cases hl : lastValue k (pairsOf B) with
  | none => exact absurd hB ((lastValue_eq_none k (pairsOf B)).mp hl)
  | some v =>
    refine ⟨_, v, TrimDuplicates_eq_spec _ hk, rfl,
      trimSpecFrom_filter_key [] k v B after hl hafter (List.not_mem_nil _) before, ?_, ?_⟩
    · intro items hB' he
      subst hB'
      have hp : pairsOf (items ++ [k]) = pairsOf items ++ [(k, Value.nil)] :=
        pairsWith_snoc Value.nil items k he
      rw [hp, lastValue_append] at hl
      simp only [lastValue, if_true] at hl
      exact (Option.some.inj hl).symm
    · intro front w back hB' he hnb
      subst hB'
      have hp : pairsOf (front ++ [k, w] ++ back) =
          pairsOf front ++ ((k, w) :: pairsOf back) := by
        rw [List.append_assoc]
        unfold pairsOf
        rw [pairsWith_append_even _ _ _ he]
        rfl
      have hnone : lastValue k (pairsOf back) = none :=
        (lastValue_eq_none k (pairsOf back)).mpr hnb
      rw [hp, lastValue_append, lastValue, hnone] at hl
      simp only [if_true] at hl
      exact (Option.some.inj hl).symm

theorem TrimDuplicates_last_occurrence_wins_witness :
    HashableKeys ([[Value.str "k", .int 1]] ++
      [Value.str "a", .int 2, .str "k", .int 3, .str "k"] :: [[Value.str "b"]]) ∧
    Value.str "k" ∈ keysOf [Value.str "a", .int 2, .str "k", .int 3, .str "k"] ∧
    Value.str "k" ∉ [[Value.str "b"]].flatMap keysOf ∧
    ∃ outs v, TrimDuplicates ([[Value.str "k", .int 1]] ++
        [Value.str "a", .int 2, .str "k", .int 3, .str "k"] :: [[Value.str "b"]]) = .ok outs ∧
      lastValue (.str "k") (pairsOf [Value.str "a", .int 2, .str "k", .int 3, .str "k"]) =
        some v ∧
      (∀ j, (pairsOf (outs.getD j [])).filter (fun p => decide (p.1 = .str "k")) =
        if j = [[Value.str "k", Value.int 1]].length then [(.str "k", v)] else []) ∧
      (∀ items, [Value.str "a", .int 2, .str "k", .int 3, .str "k"] = items ++ [.str "k"] →
        items.length % 2 = 0 → v = Value.nil) ∧
      (∀ front w back,
        [Value.str "a", .int 2, .str "k", .int 3, .str "k"] = front ++ [.str "k", w] ++ back →
        front.length % 2 = 0 → Value.str "k" ∉ keysOf back → v = w) :=
  ⟨by decide, by decide, by decide,
    TrimDuplicates_last_occurrence_wins [[.str "k", .int 1]] [[.str "b"]]
      [.str "a", .int 2, .str "k", .int 3, .str "k"] (.str "k")
      (by decide) (by decide) (by decide)⟩

theorem trimSpecFrom_idem (seen : List Value) (g : List (List Value)) :
    trimSpecFrom seen (trimSpecFrom seen g) = trimSpecFrom seen g := by
  induction g with
  | nil => rfl
  | cons l rest ih =>
    rw [trimSpecFrom, trimSpecFrom, ih, pairsOf_flat]
    congr 2
    apply keepLast_of_nodup _ _ (keepLast_keys_nodup _ _)
    intro p hp hmem
    have hns := keepLast_not_seen _ _ p hp
    apply hns
    rw [List.mem_append] at hmem ⊢
    rcases hmem with h | h
    · exact Or.inl ((mem_trimSpecFrom_keys seen rest p.1).mp h).1
    · exact Or.inr h

theorem trimSpecFrom_hashable (seen : List Value) (g : List (List Value))
    (hk : HashableKeys g) : HashableKeys (trimSpecFrom seen g) := by
  intro l hl k hkl
  have hmem : k ∈ (trimSpecFrom seen g).flatMap keysOf :=
    List.mem_flatMap.mpr ⟨l, hl, hkl⟩
  obtain ⟨l', hl', hk'⟩ := List.mem_flatMap.mp ((mem_trimSpecFrom_keys seen g k).mp hmem).1
  exact hk l' hl' k hk'

/-- C20: for a group with comparable keys, `TrimDuplicates` applied to the lists
that `TrimDuplicates` returned returns the same lists. -/
theorem TrimDuplicates_idempotent (G : List (List Value)) (hk : HashableKeys G) :
    ∃ outs, TrimDuplicates G = .ok outs ∧ TrimDuplicates outs = .ok outs := by
  refine ⟨_, TrimDuplicates_eq_spec G hk, ?_⟩
  rw [TrimDuplicates_eq_spec _ (trimSpecFrom_hashable [] G hk), trimSpecFrom_idem]

theorem TrimDuplicates_idempotent_witness :
    HashableKeys [[.str "a", .int 1, .str "b", .int 2, .str "a"], [.str "b", .int 3]] ∧
    ∃ outs, TrimDuplicates [[.str "a", .int 1, .str "b", .int 2, .str "a"], [.str "b", .int 3]]
        = .ok outs ∧ TrimDuplicates outs = .ok outs :=
  ⟨by decide, TrimDuplicates_idempotent _ (by decide)⟩

/-! ## Loggers derived with WithName and WithValues -/

theorem getD_append_left (h t : Heap) (i : Nat) (hi : i < h.length) :
    (h ++ t).getD i [] = h.getD i [] := by
  simp [List.getD_eq_getElem?_getD, List.getElem?_append_left hi]

theorem getD_append_length (h : Heap) (a : List Value) : (h ++ [a]).getD h.length [] = a := by
  simp [List.getD_eq_getElem?_getD]

theorem getD_of_length_le (h : Heap) (i : Nat) (hi : h.length ≤ i) : h.getD i [] = [] := by
  simp [List.getD_eq_getElem?_getD, List.getElem?_eq_none hi]

theorem getD_set (h : Heap) (i j : Nat) (a : List Value) :
    (h.set j a).getD i [] = if j = i ∧ j < h.length then a else h.getD i [] := by
  simp only [List.getD_eq_getElem?_getD, List.getElem?_set]
  by_cases hji : j = i
  · subst hji
    by_cases hj : j < h.length
    · simp [hj]
    · simp [hj, List.getElem?_eq_none (Nat.le_of_not_lt hj)]
  · simp [hji]

theorem keepsArrays_refl (h : Heap) : keepsArrays h h := ⟨Nat.le_refl _, fun _ _ => rfl⟩

theorem keepsArrays_trans {h1 h2 h3 : Heap} (a : keepsArrays h1 h2) (b : keepsArrays h2 h3) :
    keepsArrays h1 h3 :=
  ⟨Nat.le_trans a.1 b.1, fun i hi => by rw [b.2 i (Nat.lt_of_lt_of_le hi a.1), a.2 i hi]⟩

theorem keepsArrays_append (h t : Heap) : keepsArrays h (h ++ t) :=
  ⟨by simp, fun i hi => getD_append_left h t i hi⟩

theorem elems_of_keepsArrays {h h' : Heap} {s : Slice} (hv : s.valid h)
    (hk : keepsArrays h h') : s.elems h' = s.elems h ∧ s.valid h' := by
  by_cases hi : s.arr < h.length
  · have := hk.2 s.arr hi
    refine ⟨by rw [Slice.elems, Slice.elems, this], ?_⟩
    unfold Slice.valid at hv ⊢
    rw [this]
    exact hv
  · have h0 := getD_of_length_le h s.arr (Nat.le_of_not_lt hi)
    have hlen : s.len = 0 ∧ s.cap = 0 := by
      have := hv
      simp only [Slice.valid, h0, List.length_nil] at this
      omega
    exact ⟨by simp [Slice.elems, hlen.1], by simp [Slice.valid, hlen.1, hlen.2]⟩

theorem elems_length {h : Heap} {s : Slice} (hv : s.valid h) : (s.elems h).length = s.len := by
  simp only [Slice.elems, List.length_take]
  have := hv
  simp only [Slice.valid] at this
  omega

theorem copySlice_eq (h : Heap) (s : Slice) (hv : s.valid h) :
    copySlice h s = (h ++ [s.elems h], { arr := h.length, len := s.len, cap := s.len }) := by
  have he : s.elems (h ++ [List.replicate s.len Value.nil]) = s.elems h :=
    (elems_of_keepsArrays hv (keepsArrays_append h _)).1
  have hl := elems_length hv
  simp only [copySlice, makeSlice, copyInto, he, hl, Nat.min_self, getD_append_length]
  congr 1
  rw [← hl, List.take_length, hl]
  have hd : List.drop s.len (List.replicate s.len Value.nil) = [] := by simp
  rw [hd, List.append_nil]
  simp

theorem appendSlice_spec (grow : Nat → Nat) (h : Heap) (s : Slice) (xs : List Value)
    (hv : s.valid h) :
    (appendSlice grow h s xs).2.elems (appendSlice grow h s xs).1 = s.elems h ++ xs ∧
    (appendSlice grow h s xs).2.valid (appendSlice grow h s xs).1 ∧
    h.length ≤ (appendSlice grow h s xs).1.length ∧
    ∀ i, i < h.length → i ≠ s.arr →
      (appendSlice grow h s xs).1.getD i [] = h.getD i [] := by
  have hv' := hv
  simp only [Slice.valid] at hv'
  by_cases hfit : s.len + xs.length ≤ s.cap
  · simp only [appendSlice, if_pos hfit]
    by_cases hi : s.arr < h.length
    · refine ⟨?_, ?_, by simp, ?_⟩
      · simp only [Slice.elems, getD_set, hi, and_self, if_true]
        rw [List.append_assoc, List.take_append_eq_append_take, List.take_take]
        have h1 : (List.take s.len (h.getD s.arr [])).length = s.len := by
          rw [List.length_take]; omega
        rw [h1, Nat.min_eq_right (by omega), Nat.add_sub_cancel_left,
          List.take_append_eq_append_take, List.take_length]
        simp
      · simp only [Slice.valid, getD_set, hi, and_self, if_true, List.length_append,
          List.length_take, List.length_drop]
        omega
      · intro i _ hne
        rw [getD_set, if_neg (fun hc => hne hc.1.symm)]
    · have h0 := getD_of_length_le h s.arr (Nat.le_of_not_lt hi)
      rw [h0] at hv'
      simp only [List.length_nil] at hv'
      have hx : xs = [] := List.eq_nil_of_length_eq_zero (by omega)
      have hl : s.len = 0 := by omega
      refine ⟨?_, ?_, by simp, ?_⟩
      · simp [Slice.elems, hx, hl]
      · simp only [Slice.valid, getD_set, hi, and_false, if_false, h0, List.length_nil]
        omega
      · intro i _ hne
        rw [getD_set, if_neg (fun hc => hne hc.1.symm)]
  · simp only [appendSlice, if_neg hfit]
    have hl := elems_length hv
    refine ⟨?_, ?_, by simp, ?_⟩
    · simp only [Slice.elems, getD_append_length]
      rw [List.take_append_eq_append_take, List.length_append, List.length_take]
      have : min s.len (h.getD s.arr []).length = s.len := by omega
      rw [this, Nat.sub_self, List.take_zero, List.append_nil]
      have h2 : (List.take s.len (h.getD s.arr []) ++ xs).length = s.len + xs.length := by
        rw [List.length_append, List.length_take, this]
      rw [← h2, List.take_length]
    · simp only [Slice.valid, getD_append_length, List.length_append, List.length_replicate, hl]
      omega
    · intro i hi _
      exact getD_append_left h _ i hi

theorem WithValues_spec (grow : Nat → Nat) (h : Heap) (p : tloggerMem) (kv : List Value)
    (hv : p.values.valid h) :
    keepsArrays h (p.WithValues grow h kv).1 ∧
    (p.WithValues grow h kv).2.values.valid (p.WithValues grow h kv).1 ∧
    (p.WithValues grow h kv).2.read (p.WithValues grow h kv).1 =
      { l := p.l, pfx := p.pfx, values := p.values.elems h ++ kv } := by
  have hc := copySlice_eq h p.values hv
  have hvf : Slice.valid (h ++ [p.values.elems h])
      { arr := h.length, len := p.values.len, cap := p.values.len } := by
    simp [Slice.valid, getD_append_length, elems_length hv]
  have hef : Slice.elems (h ++ [p.values.elems h])
      { arr := h.length, len := p.values.len, cap := p.values.len } = p.values.elems h := by
    have hl := elems_length hv
    simp only [Slice.elems, getD_append_length] at hl ⊢
    exact List.take_of_length_le (by omega)
  obtain ⟨h1, h2, h3, h4⟩ := appendSlice_spec grow (h ++ [p.values.elems h])
    { arr := h.length, len := p.values.len, cap := p.values.len } kv hvf
  simp only [tloggerMem.WithValues, tloggerMem.clone, hc, tloggerMem.read]
  refine ⟨⟨?_, ?_⟩, h2, ?_⟩
  · exact Nat.le_trans (by simp) h3
  · intro i hi
    rw [h4 i (by simp; omega) (by simp; omega), getD_append_left h _ i hi]
  · rw [h1, hef]

/-- Two appends to one slice with spare capacity write into the same backing
array: the elements of the first result change when the second append runs.
This is what the copy in `clone` rules out for `WithValues`. -/
theorem appendSlice_shares_array_example :
    appendSlice id [[.str "a", .int 1, .nil, .nil]] ⟨0, 2, 4⟩ [.str "x", .int 2] =
      ([[.str "a", .int 1, .str "x", .int 2]], ⟨0, 4, 4⟩) ∧
    appendSlice id [[.str "a", .int 1, .str "x", .int 2]] ⟨0, 2, 4⟩ [.str "y", .int 3] =
      ([[.str "a", .int 1, .str "y", .int 3]], ⟨0, 4, 4⟩) ∧
    Slice.elems [[.str "a", .int 1, .str "x", .int 2]] ⟨0, 4, 4⟩ ≠
      Slice.elems [[.str "a", .int 1, .str "y", .int 3]] ⟨0, 4, 4⟩ := by
  decide

/-- C13: `WithName(name)` returns a logger whose prefix is the old prefix, `/`
and `name` when the old prefix is not empty, and `name` when it is empty; its
values hold the same elements as before, its `Logger` is the same, and the
logger it was derived from still reads the same. -/
theorem WithName_prefix (h : Heap) (l : tloggerMem) (name : String)
    (hv : l.values.valid h) :
    ∃ h' new, l.WithName h name = (h', new) ∧
      new.pfx = (if l.pfx = "" then name else l.pfx ++ "/" ++ name) ∧
      (new.read h').values = (l.read h).values ∧
      new.l = l.l ∧
      l.read h' = l.read h ∧
      ((tloggerMem.mk 0 "a" ⟨0, 0, 0⟩).WithName [] "b").2.pfx = "a/b" ∧
      ((tloggerMem.mk 0 "" ⟨0, 0, 0⟩).WithName [] "b").2.pfx = "b" := by
  have hc := copySlice_eq h l.values hv
  have hef : Slice.elems (h ++ [l.values.elems h])
      { arr := h.length, len := l.values.len, cap := l.values.len } = l.values.elems h := by
    have hl := elems_length hv
    simp only [Slice.elems, getD_append_length] at hl ⊢
    exact List.take_of_length_le (by omega)
  have hkeep := (elems_of_keepsArrays hv (keepsArrays_append h [l.values.elems h])).1
  refine ⟨_, _, rfl, ?_, ?_, ?_, ?_, by decide, by decide⟩
  · by_cases hp : l.pfx = ""
    · have hl : ¬ l.pfx.length > 0 := fun hgt => (string_length_pos l.pfx).mp hgt hp
      simp [tloggerMem.WithName, tloggerMem.clone, hl, hp]
    · have hl : l.pfx.length > 0 := (string_length_pos l.pfx).mpr hp
      simp [tloggerMem.WithName, tloggerMem.clone, hl, hp]
  · by_cases hl : l.pfx.length > 0 <;>
      simp only [tloggerMem.WithName, tloggerMem.clone, hc, hl, if_true, if_false,
        tloggerMem.read, hef]
  · by_cases hl : l.pfx.length > 0 <;>
      simp only [tloggerMem.WithName, tloggerMem.clone, hl, if_true, if_false]
  · simp only [tloggerMem.WithName, tloggerMem.clone, hc, tloggerMem.read, hkeep]

theorem WithName_prefix_witness :
    Slice.valid [[.str "k", .int 1, .nil]] (tloggerMem.mk 0 "a" ⟨0, 2, 3⟩).values ∧
    ∃ h' new, (tloggerMem.mk 0 "a" ⟨0, 2, 3⟩).WithName [[.str "k", .int 1, .nil]] "b" =
        (h', new) ∧
      new.pfx = (if (tloggerMem.mk 0 "a" ⟨0, 2, 3⟩).pfx = "" then "b"
        else (tloggerMem.mk 0 "a" ⟨0, 2, 3⟩).pfx ++ "/" ++ "b") ∧
      (new.read h').values =
        ((tloggerMem.mk 0 "a" ⟨0, 2, 3⟩).read [[.str "k", .int 1, .nil]]).values ∧
      new.l = (tloggerMem.mk 0 "a" ⟨0, 2, 3⟩).l ∧
      (tloggerMem.mk 0 "a" ⟨0, 2, 3⟩).read h' =
        (tloggerMem.mk 0 "a" ⟨0, 2, 3⟩).read [[.str "k", .int 1, .nil]] ∧
      ((tloggerMem.mk 0 "a" ⟨0, 0, 0⟩).WithName [] "b").2.pfx = "a/b" ∧
      ((tloggerMem.mk 0 "" ⟨0, 0, 0⟩).WithName [] "b").2.pfx = "b" :=
  ⟨by decide, WithName_prefix [[.str "k", .int 1, .nil]] (tloggerMem.mk 0 "a" ⟨0, 2, 3⟩) "b"
    (by decide)⟩

/-- C14: for a parent logger `p` and lists `a` and `b`, `p.WithValues(a)` reads
the values of `p` followed by `a` and has the prefix and the `Logger` of `p`;
deriving `p.WithValues(b)` afterwards, which reads the values of `p` followed by
`b`, leaves what `p` and what `p.WithValues(a)` read unchanged. -/
theorem WithValues_siblings (grow : Nat → Nat) (h : Heap) (p : tloggerMem)
    (a b : List Value) (hv : p.values.valid h) :
    ∃ h1 la h2 lb, p.WithValues grow h a = (h1, la) ∧ p.WithValues grow h1 b = (h2, lb) ∧
      la.read h1 = { l := p.l, pfx := p.pfx, values := (p.read h).values ++ a } ∧
      p.read h1 = p.read h ∧
      lb.read h2 = { l := p.l, pfx := p.pfx, values := (p.read h).values ++ b } ∧
      p.read h2 = p.read h ∧
      la.read h2 = la.read h1 := by
  obtain ⟨k1, v1, r1⟩ := WithValues_spec grow h p a hv
  obtain ⟨e1, hv1⟩ := elems_of_keepsArrays hv k1
  generalize hW1 : p.WithValues grow h a = W1 at k1 v1 r1 e1 hv1
  obtain ⟨k2, _, r2⟩ := WithValues_spec grow W1.1 p b hv1
  obtain ⟨e2, _⟩ := elems_of_keepsArrays hv1 k2
  obtain ⟨e3, _⟩ := elems_of_keepsArrays v1 k2
  generalize hW2 : p.WithValues grow W1.1 b = W2 at k2 r2 e2 e3
  refine ⟨W1.1, W1.2, W2.1, W2.2, rfl, by rw [hW2], ?_, ?_, ?_, ?_, ?_⟩
  · rw [r1]; rfl
  · simp only [tloggerMem.read, e1]
  · rw [r2, e1]; rfl
  · simp only [tloggerMem.read, e2, e1]
  · simp only [tloggerMem.read, e3]

theorem WithValues_siblings_witness :
    Slice.valid [[.str "k", .int 1, .nil, .nil]] (tloggerMem.mk 0 "a" ⟨0, 2, 4⟩).values ∧
    ∃ h1 la h2 lb,
      (tloggerMem.mk 0 "a" ⟨0, 2, 4⟩).WithValues id [[.str "k", .int 1, .nil, .nil]]
        [.str "x", .int 2] = (h1, la) ∧
      (tloggerMem.mk 0 "a" ⟨0, 2, 4⟩).WithValues id h1 [.str "y", .int 3] = (h2, lb) ∧
      la.read h1 = tlogger.mk 0 "a"
        (((tloggerMem.mk 0 "a" ⟨0, 2, 4⟩).read [[.str "k", .int 1, .nil, .nil]]).values ++
          [.str "x", .int 2]) ∧
      (tloggerMem.mk 0 "a" ⟨0, 2, 4⟩).read h1 =
        (tloggerMem.mk 0 "a" ⟨0, 2, 4⟩).read [[.str "k", .int 1, .nil, .nil]] ∧
      lb.read h2 = tlogger.mk 0 "a"
        (((tloggerMem.mk 0 "a" ⟨0, 2, 4⟩).read [[.str "k", .int 1, .nil, .nil]]).values ++
          [.str "y", .int 3]) ∧
      (tloggerMem.mk 0 "a" ⟨0, 2, 4⟩).read h2 =
        (tloggerMem.mk 0 "a" ⟨0, 2, 4⟩).read [[.str "k", .int 1, .nil, .nil]] ∧
      la.read h2 = la.read h1 :=
  ⟨by decide, WithValues_siblings id [[.str "k", .int 1, .nil, .nil]]
    (tloggerMem.mk 0 "a" ⟨0, 2, 4⟩) [.str "x", .int 2] [.str "y", .int 3] (by decide)⟩

end Klog
